import Mathlib

/-!
Shallow embedding of the tinyrl line-editing library (`src/tinyrl.c`).

Modelling conventions:
* Bytes are natural numbers; a C string is its NUL-free byte sequence.
* `buffer` holds the whole heap allocation of `this->buffer`; under the
  well-formedness facts proved below its length is `buffer_size + 1`
  (the capacity plus the terminator byte).  A NULL buffer is `[]`.
* Uninitialised bytes exposed by `realloc` growth are modelled as `0`.
* The `this->line` pointer is a three-way reference: `owned` (it equals
  `this->buffer`), `ext s` (a caller-supplied NUL-terminated string with
  byte content `s`), or `null`.
* Output written to `ostream` is accumulated in the `out` byte list; the
  terminal bell is the single byte `7`.
* The external UTF-8 helpers (`utf8.h`, out of scope per the spec) are a
  structure of pure functions, as the spec directs.
* `malloc`/`realloc` success is an explicit `allocOk : Bool` oracle.
-/

/-- The block write `memcpy`/`memmove`-style primitive: overwrite `src.length`
bytes of `l` starting at offset `i`.  Length-preserving whenever
`i + src.length ≤ l.length`, which every in-bounds C call guarantees. -/
def memwrite (l : List Nat) (i : Nat) (src : List Nat) : List Nat :=
  l.take i ++ src ++ l.drop (i + src.length)

/-- Model of `realloc(l, n)`: the first `min n l.length` bytes survive; bytes
beyond the old allocation are uninitialised and modelled as `0`. -/
def reallocList (l : List Nat) (n : Nat) : List Nat :=
  l.take n ++ List.replicate (n - l.length) 0

/-- The content of a C string stored in a byte list: everything before the
first NUL (`strlen`/`strdup` view of the bytes). -/
def cstr (l : List Nat) : List Nat := l.takeWhile (fun b => b != 0)

/-- Model of `strncpy(dst, text, n)`'s source image: bytes of `text` up to its
NUL, zero-padded to exactly `n` bytes. -/
def strncpyBytes (text : List Nat) (n : Nat) : List Nat :=
  (cstr text).take n ++ List.replicate (n - (cstr text).length) 0

/-- Where `this->line` points: at `this->buffer`, at a caller-supplied string
with byte content `s`, or nowhere (NULL). -/
inductive LineRef where
  | owned
  | ext (s : List Nat)
  | null
deriving DecidableEq, Repr

/-- The built-in key handler functions of tinyrl.c, as abstract tags; their
semantics is `execHandler` below. -/
inductive Handler where
  | default
  | crlf
  | interrupt
  | backspace
  | delete
  | clearScreen
  | eraseLine
  | startOfLine
  | endOfLine
  | kill
  | yank
  | left
  | right
deriving DecidableEq, Repr

/-- `struct tinyrl_keymap`: for each byte, an optional handler and an
optional child node. -/
inductive Keymap where
  | node (handler : Nat → Option Handler) (child : Nat → Option Keymap)

def Keymap.handler : Keymap → Nat → Option Handler
  | .node h _ => h

def Keymap.child : Keymap → Nat → Option Keymap
  | .node _ c => c

/-- `tinyrl_keymap_new()`: all 256 slots empty. -/
def emptyKeymap : Keymap := .node (fun _ => none) (fun _ => none)

/-- `tinyrl_bind_key`: overwrite the handler at the root for one byte. -/
def bindKey (km : Keymap) (key : Nat) (h : Option Handler) : Keymap :=
  .node (fun x => if x = key then h else km.handler x) km.child

/-- `tinyrl_bind_keyseq`: walk/create child nodes along the sequence, then
set the handler at the final byte.  The empty sequence binds nothing. -/
def bindSeq : Keymap → List Nat → Option Handler → Keymap
  | km, [], _ => km
  | km, [c], h => .node (fun x => if x = c then h else km.handler x) km.child
  | km, c :: rest, h =>
    let sub := match km.child c with
      | some km2 => km2
      | none => emptyKeymap
    .node km.handler (fun x => if x = c then some (bindSeq sub rest h) else km.child x)

/-- Path lookup in a keymap: the handler reached by descending through the
child nodes along the sequence and reading the handler slot at its last
byte.  `some h` is exactly "this sequence is bound to handler `h`". -/
def lookupSeq : Keymap → List Nat → Option Handler
  | _, [] => none
  | km, [c] => km.handler c
  | km, c :: rest =>
    match km.child c with
    | some km2 => lookupSeq km2 rest
    | none => none

/-- The external UTF-8 module (`utf8.h`), treated per the spec as a family of
pure functions over raw bytes. -/
structure Utf8 where
  charLen : Nat → Nat
  charPrev : List Nat → Nat → Nat → Nat
  graphemePrev : List Nat → Nat → Nat → Nat
  graphemeNext : List Nat → Nat → Nat → Nat
  graphemeWidthNext : List Nat → Nat → Nat → Nat × Nat

/-- Modelled from the spec: the properties the external UTF-8 helpers are
specified to have (boundary motion stays inside `[0, len]` and makes
progress).  Used as hypotheses; never assumed silently. -/
def WFUtf8 (u : Utf8) : Prop :=
  (∀ s len p, 0 < p → u.charPrev s len p < p) ∧
  (∀ s len p, 0 < p → u.graphemePrev s len p < p) ∧
  (∀ s len p, p < len → p < u.graphemeNext s len p ∧ u.graphemeNext s len p ≤ len)

/-- A concrete single-byte instance of the UTF-8 module (every byte is one
grapheme of width one); used to build explicit witness sessions. -/
def asciiUtf8 : Utf8 where
  charLen := fun b => if b < 128 then 1 else 0
  charPrev := fun _ _ p => p - 1
  graphemePrev := fun _ _ p => p - 1
  graphemeNext := fun _ _ p => p + 1
  graphemeWidthNext := fun _ _ p => (1, p + 1)

theorem wf_asciiUtf8 : WFUtf8 asciiUtf8 := by
  refine ⟨fun s len p hp => ?_, fun s len p hp => ?_, fun s len p hp => ⟨?_, ?_⟩⟩ <;>
    simp [asciiUtf8] <;> omega

/-- `struct tinyrl` (the I/O streams are replaced by explicit input
parameters and the accumulated `out` byte list). -/
structure Tinyrl where
  lineRef : LineRef
  max_line_length : Nat
  prompt : List Nat
  buffer : List Nat
  buffer_size : Nat
  done : Bool
  point : Nat
  end_ : Nat
  kill_string : Option (List Nat)
  keymap : Keymap
  echo_char : Nat
  echo_enabled : Bool
  last_buffer : Option (List Nat)
  last_end : Nat
  last_row : Nat
  last_point_row : Nat
  out : List Nat

/-- The byte array `this->line` points into (including the terminator for an
external string; the whole allocation for the owned buffer). -/
def lineArr (t : Tinyrl) : List Nat :=
  match t.lineRef with
  | .owned => t.buffer
  | .ext s => s ++ [0]
  | .null => []

/-- The C-string content of `this->line`. -/
def lineStr (t : Tinyrl) : List Nat := cstr (lineArr t)

/-- `tinyrl_ding`: emit the bell byte. -/
def ding (t : Tinyrl) : Tinyrl := { t with out := t.out ++ [7] }

/-- `changed_line`: copy-on-write promotion.  If `line` is a foreign string
it is `strdup`ed into a fresh owned buffer (`buffer_size` becomes its
`strlen`).  On a NULL `line` the C code would crash in `strdup`; that case is
left inert and excluded by hypotheses wherever it matters. -/
def changedLine (t : Tinyrl) : Tinyrl :=
  match t.lineRef with
  | .ext s =>
    { t with lineRef := .owned, buffer := cstr s ++ [0], buffer_size := (cstr s).length }
  | _ => t

/-- `tinyrl_extend_line_buffer(this, len)` with an allocation oracle. -/
def extendLineBuffer (t : Tinyrl) (len : Nat) (allocOk : Bool) : Tinyrl × Bool :=
  if t.buffer_size < len then
    if t.max_line_length = 0 then
      let new_len := max len (t.buffer_size + 10)
      if allocOk then
        ({ t with buffer := reallocList t.buffer (new_len + 1),
                  buffer_size := new_len, lineRef := .owned }, true)
      else (ding t, false)
    else
      if len < t.max_line_length then
        if allocOk then
          ({ t with buffer := reallocList t.buffer t.max_line_length,
                    buffer_size := t.max_line_length - 1, lineRef := .owned }, true)
        else (ding t, false)
      else (ding t, false)
  else (t, true)

/-- `tinyrl_insert_text_len(this, text, delta)`. -/
def insertTextLen (t : Tinyrl) (text : List Nat) (delta : Nat) (allocOk : Bool) :
    Tinyrl × Bool :=
  let t1 := changedLine t
  let ext := if delta + t1.end_ > t1.buffer_size then
    extendLineBuffer t1 (t1.end_ + delta) allocOk
  else (t1, true)
  match ext with
  | (t2, false) => (t2, false)
  | (t2, true) =>
    let buf1 :=
      if t2.point < t2.end_ then
        memwrite t2.buffer (t2.point + delta)
          ((t2.buffer.drop t2.point).take (t2.end_ - t2.point + 1))
      else
        t2.buffer.set (t2.end_ + delta) 0
    let buf2 := memwrite buf1 t2.point (strncpyBytes text delta)
    ({ t2 with buffer := buf2, point := t2.point + delta, end_ := t2.end_ + delta }, true)

/-- `tinyrl_insert_text(this, text)` = `insert_text_len(text, strlen(text))`. -/
def insertText (t : Tinyrl) (text : List Nat) (allocOk : Bool) : Tinyrl × Bool :=
  insertTextLen t text (cstr text).length allocOk

/-- `tinyrl_delete_text(this, start, end)`. -/
def deleteText (t : Tinyrl) (start e : Nat) : Tinyrl :=
  if e = start then t
  else
    let t1 := changedLine t
    let delta := e - start
    let buf := memwrite t1.buffer start ((t1.buffer.drop (start + delta)).take (t1.end_ + 1 - e))
    { t1 with
      buffer := buf,
      end_ := t1.end_ - delta,
      point :=
        if t1.point > e then t1.point - delta
        else if t1.point > start then start
        else t1.point }

/-- `tinyrl_set_line(this, text)`: repoint `line` (NULL falls back to the
owned buffer) and put `point = end = strlen(line)`. -/
def setLine (t : Tinyrl) (text : Option (List Nat)) : Tinyrl :=
  match text with
  | some s => { t with lineRef := .ext s, point := (cstr s).length, end_ := (cstr s).length }
  | none => { t with lineRef := .owned, point := (cstr t.buffer).length,
                     end_ := (cstr t.buffer).length }

/-- Decimal digits of `n` as ASCII bytes (for the `%d` of `tinyrl_printf`). -/
def natDec (n : Nat) : List Nat := (Nat.toDigits 10 n).map Char.toNat

/-- Output bytes of `tinyrl_vt100_cursor_up(n)`: `ESC [ n A`. -/
def vtUp (n : Nat) : List Nat := [27, 91] ++ natDec n ++ [65]

/-- Output bytes of `tinyrl_vt100_cursor_down(n)`: `ESC [ n B`. -/
def vtDown (n : Nat) : List Nat := [27, 91] ++ natDec n ++ [66]

/-- Output bytes of `tinyrl_vt100_cursor_forward(n)`: `ESC [ n C`. -/
def vtForward (n : Nat) : List Nat := [27, 91] ++ natDec n ++ [67]

/-- Output bytes of `tinyrl_vt100_erase_line_end`: `ESC [ 0 K`. -/
def vtEraseLineEnd : List Nat := [27, 91, 48, 75]

/-- Output bytes of `tinyrl_vt100_erase_line`: `ESC [ 2 K`. -/
def vtEraseLine : List Nat := [27, 91, 50, 75]

/-- Output bytes of `tinyrl_vt100_clear_screen` and cursor home. -/
def vtClearScreen : List Nat := [27, 91, 50, 74]
def vtCursorHome : List Nat := [27, 91, 72]

/-- The loop body of `tinyrl_string_wrap`, walking the string by grapheme
widths and wrapping the `(row, col)` pair at `row_width`.  `fuel` bounds the
iteration count; `len + 1` suffices whenever `graphemeWidthNext` makes
progress (repeated grapheme steps from any position). -/
def stringWrapAux (u : Utf8) (s : List Nat) (len row_width : Nat) :
    Nat → Nat → Nat → Nat → Nat × Nat
  | 0, _, row, col => (row, col)
  | fuel + 1, point, row, col =>
    if point < len then
      let wn := u.graphemeWidthNext s len point
      let col2 := col + wn.1
      if col2 > row_width then
        stringWrapAux u s len row_width fuel wn.2 (row + 1) wn.1
      else
        stringWrapAux u s len row_width fuel wn.2 row col2
    else (row, col)

/-- `tinyrl_string_wrap(s, len, row_width, &row, &col)`. -/
def stringWrap (u : Utf8) (s : List Nat) (len row_width row col : Nat) : Nat × Nat :=
  stringWrapAux u s len row_width (len + 1) 0 row col

/-- The grapheme-counting loop of `tinyrl_internal_print` in the
echo-substitution case, computing the displayed `(point, end)` pair. -/
def echoCountAux (u : Utf8) (s : List Nat) (tend tpoint : Nat) :
    Nat → Nat → Nat → Nat → Nat × Nat
  | 0, _, p, e => (p, e)
  | fuel + 1, i, p, e =>
    let p2 := if i = tpoint then e else p
    if i ≥ tend then (p2, e)
    else echoCountAux u s tend tpoint fuel (u.graphemeNext s tend i) p2 (e + 1)

/-- `tinyrl_internal_print`: the displayed buffer together with the displayed
`point` and `end` (allocation assumed to succeed). -/
def internalPrint (u : Utf8) (t : Tinyrl) : List Nat × Nat × Nat :=
  if t.echo_enabled then
    (lineStr t, t.point, t.end_)
  else if t.echo_char ≠ 0 then
    let pe := echoCountAux u (lineArr t) t.end_ t.point (t.end_ + 1) 0 0 0
    (List.replicate pe.2 t.echo_char, pe.1, pe.2)
  else
    ([], 0, 0)

/-- The keep-prefix loop of `tinyrl_redisplay`: the longest grapheme-aligned
byte prefix of the new display buffer that does not reach past `last_end`
and agrees byte-for-byte with the previous display buffer. -/
def keepLoopAux (u : Utf8) (buffer : List Nat) (e : Nat) (lb : List Nat) (lastEnd : Nat) :
    Nat → Nat → Nat
  | 0, k => k
  | fuel + 1, k =>
    if k ≥ e then k
    else
      let nl := u.graphemeNext buffer e k
      if nl > lastEnd then k
      else if (buffer.drop k).take (nl - k) = (lb.drop k).take (nl - k) then
        keepLoopAux u buffer e lb lastEnd fuel nl
      else k

/-- `tinyrl_redisplay`, producing the emitted bytes and the new snapshot. -/
def redisplay (u : Utf8) (w : Nat) (t : Tinyrl) : Tinyrl :=
  let pr0 := stringWrap u t.prompt t.prompt.length w 0 0
  let dp := internalPrint u t
  let buffer := dp.1
  let point := dp.2.1
  let e := dp.2.2
  let head : List Nat × Nat :=
    match t.last_buffer with
    | some lb =>
      let k0 := keepLoopAux u buffer e lb t.last_end (e + 1) 0
      let kr0 := stringWrap u buffer k0 w pr0.1 pr0.2
      let kk : Nat × Nat × Nat :=
        if k0 > 0 ∧ kr0.2 = w then
          let k1 := u.graphemePrev buffer e k0
          let kr1 := stringWrap u buffer k1 w pr0.1 pr0.2
          (k1, kr1.1, kr1.2)
        else (k0, kr0.1, kr0.2)
      let keepLen := kk.1
      let keepRow := kk.2.1
      let keepCol := kk.2.2
      let move :=
        if t.last_row > t.last_point_row then vtDown (t.last_row - t.last_point_row)
        else if t.last_row < t.last_point_row then vtUp (t.last_point_row - t.last_row)
        else []
      let eraseRows := List.flatten (List.replicate (t.last_row - keepRow) (vtEraseLine ++ vtUp 1))
      let fwd := if keepCol ≠ 0 then vtForward keepCol else []
      ([13] ++ move ++ eraseRows ++ fwd ++ vtEraseLineEnd, keepLen)
    | none => (t.prompt, 0)
  let tail := buffer.drop head.2
  let rc := stringWrap u buffer e w pr0.1 pr0.2
  let row := rc.1
  let pc0 := stringWrap u buffer point w pr0.1 pr0.2
  let pAdj : Nat × Nat :=
    if pc0.2 = w ∨ (point < e ∧ pc0.2 + (u.graphemeWidthNext buffer e point).1 > w) then
      (pc0.1 + 1, 0)
    else (pc0.1, pc0.2)
  let pointRow := pAdj.1
  let pointCol := pAdj.2
  let nl := if row < pointRow then [10] else []
  let reposition :=
    if e > point then
      (if row > pointRow then vtUp (row - pointRow) else []) ++ [13] ++
        (if pointCol ≠ 0 then vtForward pointCol else [])
    else []
  { t with
    out := t.out ++ head.1 ++ tail ++ nl ++ reposition,
    last_buffer := some buffer,
    last_end := e,
    last_row := row,
    last_point_row := pointRow }

/-- `tinyrl_reset_line_state`: drop the snapshot and redisplay from scratch. -/
def resetLineState (u : Utf8) (w : Nat) (t : Tinyrl) : Tinyrl :=
  redisplay u w { t with last_buffer := none }

/-- `tinyrl_replace_line(this, text)`. -/
def replaceLine (u : Utf8) (w : Nat) (t : Tinyrl) (text : List Nat) (allocOk : Bool) :
    Tinyrl :=
  let new_len := (cstr text).length
  let ext := extendLineBuffer t new_len allocOk
  let t2 :=
    if ext.2 then
      { ext.1 with
        buffer := memwrite ext.1.buffer 0 (cstr text ++ [0]),
        point := new_len, end_ := new_len }
    else ext.1
  redisplay u w t2

/-- `tinyrl_key_kill`: store `strdup(&buffer[point])` as the kill string and
delete to the end of the line. -/
def keyKill (t : Tinyrl) : Tinyrl × Bool :=
  let t1 := { t with kill_string := some (cstr (t.buffer.drop t.point)) }
  (deleteText t1 t1.point t1.end_, true)

/-- `tinyrl_key_yank`: insert the kill string if one exists. -/
def keyYank (t : Tinyrl) (allocOk : Bool) : Tinyrl × Bool :=
  match t.kill_string with
  | some ks => insertText t ks allocOk
  | none => (t, false)

/-- Byte-level `isspace` over the ASCII space class. -/
def isspaceB (b : Nat) : Bool := b == 32 || (9 ≤ b && b ≤ 13)

/-- The semantics of each built-in handler (`tinyrl_key_*`), given the key
bytes that were passed to it.  Allocation inside handlers is modelled as
succeeding. -/
def execHandler (u : Utf8) (w : Nat) (h : Handler) (t : Tinyrl) (key : List Nat) :
    Tinyrl × Bool :=
  match h with
  | .default => insertText t key true
  | .crlf => ({ t with out := t.out ++ [10], done := true }, true)
  | .interrupt =>
    let t1 := deleteText t 0 t.end_
    ({ t1 with done := true }, true)
  | .startOfLine => ({ t with point := 0 }, true)
  | .endOfLine => ({ t with point := t.end_ }, true)
  | .kill => keyKill t
  | .yank => keyYank t true
  | .left =>
    if t.point > 0 then
      ({ t with point := u.graphemePrev (lineArr t) t.end_ t.point }, true)
    else (t, false)
  | .right =>
    if t.point < t.end_ then
      ({ t with point := u.graphemeNext (lineArr t) t.end_ t.point }, true)
    else (t, false)
  | .backspace =>
    if t.point ≠ 0 then
      let e := t.point
      let p := u.charPrev (lineArr t) t.end_ t.point
      (deleteText { t with point := p } p e, true)
    else (t, false)
  | .delete =>
    if t.point < t.end_ then
      (deleteText t t.point (u.graphemeNext (lineArr t) t.end_ t.point), true)
    else (t, false)
  | .clearScreen =>
    (resetLineState u w { t with out := t.out ++ vtClearScreen ++ vtCursorHome }, true)
  | .eraseLine =>
    let t1 := deleteText t 0 t.point
    ({ t1 with point := 0 }, true)

/-- One chunk's worth of the dispatch walk of `tinyrl_handle_key`: process
the remaining bytes `rem` of the current key chunk, recording the deepest
handler seen (`best`, matched at depth `bestD`); `d` counts the bytes
matched so far.  Returns the updated triple and `some km2` when the chunk
ran out with a live child node (the loop would attempt a non-blocking
refill), or `none` when the walk stopped at a missing child. -/
def walkBytes (km : Keymap) (rem : List Nat) (best : Option Handler) (bestD d : Nat) :
    Option Handler × Nat × Nat × Option Keymap :=
  match rem with
  | [] => (best, bestD, d, some km)
  | c :: rest =>
    let bb : Option Handler × Nat :=
      match km.handler c with
      | some h => (some h, d + 1)
      | none => (best, bestD)
    match km.child c with
    | none => (bb.1, bb.2, d + 1, none)
    | some km2 => walkBytes km2 rest bb.1 bb.2 (d + 1)

/-- The full dispatch walk of `tinyrl_handle_key`.  `cur` is the whole
current chunk (the `key` buffer a handler will receive), `evs` the stream of
pending non-blocking read results (`none`: nothing available / EOF),
`consumed` the reads popped from `evs`.  Returns
`(best handler, matched bytes of best, final key buffer, reads consumed)`. -/
def walkAux : Keymap → List Nat → List Nat → List (Option (List Nat)) →
    Option Handler → Nat → Nat → Nat → Option Handler × Nat × List Nat × Nat
  | km, chunk, cur, [], best, bestD, d, consumed =>
    let r := walkBytes km chunk best bestD d
    (r.1, r.2.1, cur, consumed)
  | km, chunk, cur, ev :: evs2, best, bestD, d, consumed =>
    match walkBytes km chunk best bestD d with
    | (b2, bd2, _, none) => (b2, bd2, cur, consumed)
    | (b2, bd2, d2, some km2) =>
      match ev with
      | none => (b2, bd2, cur, consumed + 1)
      | some [] => (b2, bd2, cur, consumed + 1)
      | some (k1 :: ks) => walkAux km2 (k1 :: ks) (k1 :: ks) evs2 b2 bd2 d2 (consumed + 1)

/-- The selection phase of `tinyrl_handle_key` on a fresh chunk. -/
def dispatchSel (km : Keymap) (chunk : List Nat) (evs : List (Option (List Nat))) :
    Option Handler × Nat × List Nat × Nat :=
  walkAux km chunk chunk evs none 0 0 0

/-- `tinyrl_handle_key`: walk the trie, then invoke the best recorded
handler once, ringing the bell when there is none or when it fails.
Returns the new session and the number of reads consumed from `evs`. -/
def handleKeyS (u : Utf8) (w : Nat) (t : Tinyrl) (chunk : List Nat)
    (evs : List (Option (List Nat))) : Tinyrl × Nat :=
  let sel := dispatchSel t.keymap chunk evs
  match sel.1 with
  | none => (ding t, sel.2.2.2)
  | some h =>
    let r := execHandler u w h t sel.2.2.1
    (if r.2 then r.1 else ding r.1, sel.2.2.2)

/-- The keymap installed by `tinyrl_init`. -/
def defaultKeymap : Keymap :=
  let km := (List.range 256).foldl
    (fun km i => if 32 ≤ i then bindKey km i (some .default) else km) emptyKeymap
  let km := bindKey km 13 (some .crlf)
  let km := bindKey km 10 (some .crlf)
  let km := bindKey km 3 (some .interrupt)
  let km := bindKey km 127 (some .backspace)
  let km := bindKey km 8 (some .backspace)
  let km := bindKey km 4 (some .delete)
  let km := bindKey km 12 (some .clearScreen)
  let km := bindKey km 21 (some .eraseLine)
  let km := bindKey km 1 (some .startOfLine)
  let km := bindKey km 5 (some .endOfLine)
  let km := bindKey km 11 (some .kill)
  let km := bindKey km 25 (some .yank)
  let km := bindSeq km [27, 91, 67] (some .right)
  let km := bindSeq km [27, 91, 68] (some .left)
  let km := bindSeq km [27, 79, 72] (some .startOfLine)
  let km := bindSeq km [27, 79, 70] (some .endOfLine)
  let km := bindSeq km [27, 91, 50, 126] none
  let km := bindSeq km [27, 91, 51, 126] (some .delete)
  km

/-- The session right after `tinyrl_new`/`tinyrl_init` (both `line` and
`buffer` are NULL, so `line == buffer`). -/
def tinyrlNew : Tinyrl where
  lineRef := .owned
  max_line_length := 0
  prompt := []
  buffer := []
  buffer_size := 0
  done := false
  point := 0
  end_ := 0
  kill_string := none
  keymap := defaultKeymap
  echo_char := 0
  echo_enabled := true
  last_buffer := none
  last_end := 0
  last_row := 0
  last_point_row := 0
  out := []

/-- The initialisation performed at the top of `tinyrl_readline`: empty
owned buffer, `point = end = 0`, `done = false`, fresh prompt. -/
def readlineInit (t : Tinyrl) (prompt : List Nat) : Tinyrl :=
  { t with
    done := false, point := 0, end_ := 0,
    buffer := [0], buffer_size := 0, lineRef := .owned, prompt := prompt }

/-- The value `tinyrl_readline` would return from a final session state:
NULL stays NULL, anything else is `strdup(this->line)`. -/
def readlineResult (t : Tinyrl) : Option (List Nat) :=
  match t.lineRef with
  | .null => none
  | _ => some (lineStr t)

/-- The trailing-whitespace strip `tinyrl_readtty` applies after a handler
sets `done`. -/
def stripTrailing (t : Tinyrl) : Tinyrl :=
  if t.end_ ≠ 0 ∧ isspaceB ((lineArr t).getD (t.end_ - 1) 0) then
    deleteText t (t.end_ - 1) t.end_
  else t

/-- The `while (!done)` loop of `tinyrl_readtty` over a stream of blocking
read results (`none` or an exhausted stream is EOF / a read error).  The
returned flag records whether the loop terminated through the EOF branch.
`fuel` bounds the iteration count; every iteration consumes at least one
read result, so `evs.length + 1` is always enough. -/
def readttyLoop (u : Utf8) (w : Nat) :
    Nat → Tinyrl → List (Option (List Nat)) → Tinyrl × Bool
  | 0, t, _ => (t, false)
  | fuel + 1, t, evs =>
    if t.done then (t, false)
    else
      let t1 := redisplay u w t
      match evs with
      | [] => ({ t1 with done := true, lineRef := .null }, true)
      | e :: rest =>
        match e with
        | none => ({ t1 with done := true, lineRef := .null }, true)
        | some key =>
          match key with
          | [] => ({ t1 with done := true, lineRef := .null }, true)
          | _ :: _ =>
            let hk := handleKeyS u w t1 key rest
            let t2 := if hk.1.done then stripTrailing hk.1 else hk.1
            readttyLoop u w fuel t2 (rest.drop hk.2)

/-- `tinyrl_readtty` (terminal attribute juggling elided). -/
def readtty (u : Utf8) (w : Nat) (t : Tinyrl) (evs : List (Option (List Nat))) :
    Tinyrl × Bool :=
  readttyLoop u w (evs.length + 1) (resetLineState u w t) evs

/-- One `fgets(buffer, n, f)` character-gathering pass: up to `count` bytes,
stopping after a newline; the flag records whether EOF was hit. -/
def fgetsRead : Nat → List Nat → List Nat × List Nat × Bool
  | 0, rest => ([], rest, false)
  | _ + 1, [] => ([], [], true)
  | count + 1, b :: rest =>
    if b = 10 then ([b], rest, false)
    else
      let r := fgetsRead count rest
      (b :: r.1, r.2.1, r.2.2)

/-- `fgets(buffer, 80, istream)`: `none` exactly when EOF occurs before any
byte is read. -/
def fgetsModel (input : List Nat) : Option (List Nat) × List Nat × Bool :=
  match input with
  | [] => (none, [], true)
  | _ => let r := fgetsRead 79 input; (some r.1, r.2.1, r.2.2)

/-- The CR/LF strip of `tinyrl_readraw`: truncate at the first `'\r'` if
any, else at the first `'\n'`. -/
def truncCRLF (l : List Nat) : List Nat :=
  let i13 := l.indexOf 13
  if i13 < l.length then l.take i13
  else l.take (l.indexOf 10)

/-- The read loop of `tinyrl_readraw`.  Returns the session, the unread
input, whether the final `fgets` returned NULL, and the stream EOF flag. -/
def readrawLoop (u : Utf8) (w : Nat) :
    Nat → Tinyrl → List Nat → Tinyrl × List Nat × Bool × Bool
  | 0, t, input => (t, input, false, false)
  | fuel + 1, t, input =>
    match fgetsModel input with
    | (none, rest, e) => (t, rest, true, e)
    | (some chunk, rest, e) =>
      let tr := truncCRLF chunk
      let s := if t.point = 0 then tr.dropWhile isspaceB else tr
      let t2 := if s.isEmpty then t else redisplay u w (insertText t s true).1
      if tr.length + 1 = 80 then readrawLoop u w fuel t2 rest
      else (t2, rest, false, e)

/-- `tinyrl_readraw`: run the loop, then either abandon the line (`line =
NULL`) or commit it with a CRLF and `done`. -/
def readraw (u : Utf8) (w : Nat) (t : Tinyrl) (input : List Nat) : Tinyrl :=
  let t0 := { t with last_buffer := none }
  let r := readrawLoop u w (input.length + 1) t0 input
  let t1 := r.1
  if r.2.2.1 || (decide (lineStr t1 = []) && r.2.2.2) then
    { t1 with lineRef := .null }
  else
    { t1 with out := t1.out ++ [10], done := true }

/-- `tinyrl_readline` in interactive mode: initialise, run the tty loop,
extract the result (the buffer free at the very end is the caller-facing
teardown and is not part of the session trace). -/
def readlineTty (u : Utf8) (w : Nat) (t : Tinyrl) (prompt : List Nat)
    (evs : List (Option (List Nat))) : Option (List Nat) :=
  readlineResult (readtty u w (readlineInit t prompt) evs).1

/-- `tinyrl_readline` in non-interactive mode. -/
def readlineRaw (u : Utf8) (w : Nat) (t : Tinyrl) (prompt : List Nat)
    (input : List Nat) : Option (List Nat) :=
  readlineResult (readraw u w (readlineInit t prompt) input)

/-! ### Basic facts about the byte-list primitives -/

theorem memwrite_nil_src (l : List Nat) (i : Nat) : memwrite l i [] = l := by
  simp [memwrite]

theorem cstr_drop_eq_nil {l : List Nat} {n : Nat} (h : l.getD n 1 = 0) :
    cstr (l.drop n) = [] := by
  have hn : n < l.length := by
    by_contra hc
    rw [List.getD_eq_default _ _ (by omega)] at h
    exact one_ne_zero h
  rw [List.drop_eq_getElem_cons hn]
  have hv : l[n] = 0 := by
    rw [List.getD_eq_getElem _ _ hn] at h
    exact h
  simp [cstr, hv]

theorem set_getD_zero {l : List Nat} {n : Nat} (h : l.getD n 1 = 0) :
    l.set n 0 = l := by
  induction l generalizing n with
  | nil => simp
  | cons a l ih =>
    cases n with
    | zero => simp_all
    | succ m =>
      simp only [List.getD_cons_succ] at h
      simp [ih h]

theorem reallocList_of_le {l : List Nat} {n : Nat} (h : l.length ≤ n) :
    reallocList l n = l ++ List.replicate (n - l.length) 0 := by
  simp [reallocList, List.take_of_length_le h]

/-! ### C10 — `delete_text(a, a)` is the identity -/

/-- C10: for every session state and every offset `a`, `delete_text(a, a)`
leaves the session unchanged — the code returns before the copy-on-write
promotion, so even a caller-supplied `line` reference survives. -/
theorem delete_text_empty_noop (t : Tinyrl) (a : Nat) : deleteText t a a = t := by
  simp [deleteText]

/-! ### C8 — yank with an empty kill buffer -/

/-- C8 counterexample: after `kill` at `point == end` the kill string is the
empty string (not NULL), and `yank` then returns `true` without ringing the
bell, with the buffer unchanged — the claim's "returns false" is wrong for
this state. -/
theorem yank_after_empty_kill_returns_true :
    (keyYank (keyKill (readlineInit tinyrlNew [])).1 true).2 = true ∧
    (keyKill (readlineInit tinyrlNew [])).1.kill_string = some [] ∧
    (keyYank (keyKill (readlineInit tinyrlNew [])).1 true).1.buffer =
      (readlineInit tinyrlNew []).buffer ∧
    (keyYank (keyKill (readlineInit tinyrlNew [])).1 true).1.out = [] := by
  refine ⟨by decide, by decide, by decide, by decide⟩

/-- C8 amended: `yank` returns false (and the dispatcher then rings the
bell) exactly when `kill_string` is NULL, i.e. when no kill has ever stored
text; the state is unchanged.  A `kill` invoked with `point == end` instead
stores the *empty* string, after which `yank` succeeds (returns true) and
changes nothing but the stored kill string. -/
theorem yank_null_kill_spec (t : Tinyrl) (a : Bool) :
    (t.kill_string = none → keyYank t a = (t, false)) ∧
    (t.lineRef = .owned → t.point = t.end_ → t.end_ ≤ t.buffer_size →
      t.buffer.getD t.end_ 1 = 0 →
      (keyKill t).1 = { t with kill_string := some [] } ∧
      keyYank (keyKill t).1 a = ({ t with kill_string := some [] }, true)) := by
  constructor
  · intro h
    simp [keyYank, h]
  · intro href hpe hbs hterm
    have hkill : (keyKill t).1 = { t with kill_string := some [] } := by
      simp [keyKill, hpe, cstr_drop_eq_nil hterm, deleteText]
    refine ⟨hkill, ?_⟩
    rw [hkill]
    have hcl : changedLine { t with kill_string := some (α := List Nat) [] } =
        { t with kill_string := some [] } := by
      simp [changedLine, href]
    simp only [keyYank, insertText, insertTextLen, hcl, cstr]
    have hng : ¬ (0 + t.end_ > t.buffer_size) := by simpa using hbs
    simp only [List.takeWhile_nil, List.length_nil, hng, if_neg hng, if_false]
    simp only [hpe, lt_irrefl, if_false, if_neg (lt_irrefl t.end_)]
    have hsn : strncpyBytes ([] : List Nat) 0 = [] := by simp [strncpyBytes, cstr]
    simp [hsn, memwrite_nil_src, hpe, set_getD_zero hterm]

/-- C8 witness: the general statement applied to a concrete session with a
NULL kill string. -/
theorem yank_null_kill_spec_witness :
    keyYank (readlineInit tinyrlNew []) true = (readlineInit tinyrlNew [], false) :=
  (yank_null_kill_spec (readlineInit tinyrlNew []) true).1 rfl

/-! ### C4 — `extend_line_buffer` -/

/-- C4 counterexample: with `max_line_length = 5` and `len = 3 < 5` the call
succeeds but the resulting capacity is `max_line_length - 1 = 4`, not
`max_line_length` (the allocation is `max_line_length` bytes *including* the
terminator), refuting "grows the capacity once to max_line_length". -/
theorem extend_capacity_off_by_one :
    (extendLineBuffer { tinyrlNew with max_line_length := 5, buffer := [0] } 3 true).2
      = true ∧
    (extendLineBuffer { tinyrlNew with max_line_length := 5, buffer := [0] } 3 true).1.buffer_size
      = 4 ∧
    ¬ (extendLineBuffer { tinyrlNew with max_line_length := 5, buffer := [0] } 3 true).1.buffer_size
      = 5 := by
  refine ⟨by decide, by decide, by decide⟩

/-- C4 amended: `extend_line_buffer(len)` returns true unchanged when the
capacity already covers `len`; otherwise, with `max_line_length == 0` it
grows the capacity to `max(len, current + 10)` (keeping the old content and
returning true when allocation succeeds), and with `max_line_length > 0` it
reallocates once to `max_line_length` bytes — capacity `max_line_length - 1`
— failing exactly when `len ≥ max_line_length`; every failure rings the
bell, returns false and leaves the buffer in its previous state. -/
theorem extend_line_buffer_spec (t : Tinyrl) (len : Nat) (a : Bool)
    (hlen : t.buffer.length = t.buffer_size + 1) :
    (¬ t.buffer_size < len → extendLineBuffer t len a = (t, true)) ∧
    (t.buffer_size < len → t.max_line_length = 0 → a = true →
      (extendLineBuffer t len a).2 = true ∧
      (extendLineBuffer t len a).1.buffer_size = max len (t.buffer_size + 10) ∧
      (extendLineBuffer t len a).1.buffer =
        t.buffer ++ List.replicate (max len (t.buffer_size + 10) - t.buffer_size) 0 ∧
      len ≤ (extendLineBuffer t len a).1.buffer_size ∧
      (extendLineBuffer t len a).1.buffer.length =
        (extendLineBuffer t len a).1.buffer_size + 1) ∧
    (t.buffer_size < len → 0 < t.max_line_length → len < t.max_line_length → a = true →
      (extendLineBuffer t len a).2 = true ∧
      (extendLineBuffer t len a).1.buffer_size = t.max_line_length - 1 ∧
      (extendLineBuffer t len a).1.buffer =
        t.buffer ++ List.replicate (t.max_line_length - (t.buffer_size + 1)) 0 ∧
      len ≤ (extendLineBuffer t len a).1.buffer_size ∧
      (extendLineBuffer t len a).1.buffer.length =
        (extendLineBuffer t len a).1.buffer_size + 1) ∧
    (t.buffer_size < len → (0 < t.max_line_length ∧ t.max_line_length ≤ len) ∨ a = false →
      extendLineBuffer t len a = (ding t, false)) := by
  refine ⟨?_, ?_, ?_, ?_⟩
  · intro h
    simp [extendLineBuffer, h]
  · intro hlt hm ha
    subst ha
    have hle : t.buffer.length ≤ max len (t.buffer_size + 10) + 1 := by
      rw [hlen]; omega
    have heq : extendLineBuffer t len true =
        ({ t with buffer := reallocList t.buffer (max len (t.buffer_size + 10) + 1),
                  buffer_size := max len (t.buffer_size + 10), lineRef := .owned }, true) := by
      simp [extendLineBuffer, hlt, hm]
    rw [heq]
    have hcnt : max len (t.buffer_size + 10) + 1 - t.buffer.length =
        max len (t.buffer_size + 10) - t.buffer_size := by rw [hlen]; omega
    refine ⟨rfl, rfl, ?_, le_max_left _ _, ?_⟩
    · show reallocList t.buffer (max len (t.buffer_size + 10) + 1) = _
      rw [reallocList_of_le hle, hcnt]
    · show (reallocList t.buffer (max len (t.buffer_size + 10) + 1)).length = _
      rw [reallocList_of_le hle]
      simp only [List.length_append, List.length_replicate, hlen]
      omega
  · intro hlt hm hmlt ha
    subst ha
    have hm0 : ¬ t.max_line_length = 0 := by omega
    have hle : t.buffer.length ≤ t.max_line_length := by rw [hlen]; omega
    have heq : extendLineBuffer t len true =
        ({ t with buffer := reallocList t.buffer t.max_line_length,
                  buffer_size := t.max_line_length - 1, lineRef := .owned }, true) := by
      simp [extendLineBuffer, hlt, hm0, hmlt]
    rw [heq]
    have hcnt : t.max_line_length - t.buffer.length =
        t.max_line_length - (t.buffer_size + 1) := by rw [hlen]
    refine ⟨rfl, rfl, ?_, by show len ≤ t.max_line_length - 1; omega, ?_⟩
    · show reallocList t.buffer t.max_line_length = _
      rw [reallocList_of_le hle, hcnt]
    · show (reallocList t.buffer t.max_line_length).length = _
      rw [reallocList_of_le hle]
      simp only [List.length_append, List.length_replicate, hlen]
      omega
  · intro hlt hfail
    rcases hfail with ⟨hm, hml⟩ | ha
    · have hm0 : ¬ t.max_line_length = 0 := by omega
      have hnl : ¬ len < t.max_line_length := by omega
      cases a <;> simp [extendLineBuffer, if_pos hlt, if_neg hm0, if_neg hnl]
    · subst ha
      by_cases hm : t.max_line_length = 0
      · simp [extendLineBuffer, if_pos hlt, hm]
      · by_cases hml : len < t.max_line_length <;>
          simp [extendLineBuffer, if_pos hlt, if_neg hm, hml]

/-- C4 witness: the amended characterisation applied to a concrete session
(growth from capacity 0 to `max(3, 10) = 10` under no length limit). -/
theorem extend_line_buffer_spec_witness :
    (extendLineBuffer { tinyrlNew with buffer := [0] } 3 true).2 = true ∧
    (extendLineBuffer { tinyrlNew with buffer := [0] } 3 true).1.buffer_size = 10 :=
  ⟨((extend_line_buffer_spec { tinyrlNew with buffer := [0] } 3 true (by decide)).2.1
      (by decide) rfl rfl).1,
   ((extend_line_buffer_spec { tinyrlNew with buffer := [0] } 3 true (by decide)).2.1
      (by decide) rfl rfl).2.1⟩

/-! ### Slicing lemmas for `memwrite` -/

theorem length_memwrite {l src : List Nat} {i : Nat} (h : i + src.length ≤ l.length) :
    (memwrite l i src).length = l.length := by
  simp only [memwrite, List.length_append, List.length_take, List.length_drop]
  omega

theorem take_memwrite_le {l src : List Nat} {i j : Nat} (hj : j ≤ i) (hi : i ≤ l.length) :
    (memwrite l i src).take j = l.take j := by
  have h1 : (l.take i).length = i := by simp; omega
  rw [memwrite, List.append_assoc, List.take_append_of_le_length (by omega),
    List.take_take, min_eq_left hj]

theorem drop_memwrite_start {l src : List Nat} {i : Nat} (hi : i ≤ l.length) :
    (memwrite l i src).drop i = src ++ l.drop (i + src.length) := by
  have h1 : (l.take i).length = i := by simp; omega
  rw [memwrite, List.append_assoc, List.drop_left' h1]

theorem drop_memwrite_past {l src : List Nat} {i : Nat} (hi : i ≤ l.length) :
    (memwrite l i src).drop (i + src.length) = l.drop (i + src.length) := by
  have h1 : ((l.take i) ++ src).length = i + src.length := by simp; omega
  rw [memwrite, List.drop_left' h1]

theorem take_set_of_le {l : List Nat} {i j : Nat} {v : Nat} (h : j ≤ i) :
    (l.set i v).take j = l.take j := by
  induction l generalizing i j with
  | nil => simp
  | cons a l ih =>
    cases i with
    | zero =>
      have : j = 0 := by omega
      simp [this]
    | succ m =>
      cases j with
      | zero => simp
      | succ n =>
        simp only [List.set_cons_succ, List.take_succ_cons]
        rw [ih (show n ≤ m by omega)]

theorem drop_set_self {l : List Nat} {i : Nat} {v : Nat} (h : i < l.length) :
    (l.set i v).drop i = v :: l.drop (i + 1) := by
  induction l generalizing i with
  | nil => simp at h
  | cons a l ih =>
    cases i with
    | zero => simp
    | succ m =>
      simp only [List.length_cons] at h
      simp only [List.set_cons_succ, List.drop_succ_cons]
      rw [ih (show m < l.length by omega)]

theorem cstr_of_not_mem {s : List Nat} (h : 0 ∉ s) : cstr s = s := by
  apply List.takeWhile_eq_self_iff.mpr
  intro x hx
  simp only [bne_iff_ne, ne_eq]
  intro h0
  exact h (h0 ▸ hx)

/-! ### C1 — `insert_text` -/

/-- Well-formedness facts a live session satisfies when a mutator is called:
cursor within bounds, a non-NULL line, a consistent owned buffer with its
terminator, and for an external line a NUL-free string of length `end`. -/
def WFLine (t : Tinyrl) : Prop :=
  t.point ≤ t.end_ ∧ t.lineRef ≠ .null ∧
  (t.lineRef = .owned →
    t.buffer.length = t.buffer_size + 1 ∧ t.end_ ≤ t.buffer_size ∧
    t.buffer.getD t.end_ 1 = 0) ∧
  (∀ s, t.lineRef = .ext s → 0 ∉ s ∧ t.end_ = s.length)

theorem getD_concat_self (l : List Nat) (v : Nat) : (l ++ [v]).getD l.length 1 = v := by
  induction l with
  | nil => rfl
  | cons a l ih => simp only [List.cons_append, List.length_cons, List.getD_cons_succ]; exact ih

theorem changedLine_facts {t : Tinyrl} (h : WFLine t) :
    (changedLine t).buffer = lineArr t ∧
    (changedLine t).buffer.length = (changedLine t).buffer_size + 1 ∧
    t.end_ ≤ (changedLine t).buffer_size ∧
    (changedLine t).buffer.getD t.end_ 1 = 0 ∧
    (changedLine t).point = t.point ∧
    (changedLine t).end_ = t.end_ := by
  obtain ⟨hpe, hnn, how, hex⟩ := h
  cases href : t.lineRef with
  | owned =>
    obtain ⟨h1, h2, h3⟩ := how href
    have hcl : changedLine t = t := by simp [changedLine, href]
    rw [hcl]
    exact ⟨by simp [lineArr, href], h1, h2, h3, rfl, rfl⟩
  | ext s =>
    obtain ⟨h0, hlen⟩ := hex s href
    have hc : cstr s = s := cstr_of_not_mem h0
    have hcl : changedLine t =
        { t with lineRef := .owned, buffer := s ++ [0], buffer_size := s.length } := by
      simp [changedLine, href, hc]
    rw [hcl]
    refine ⟨by simp [lineArr, href], by simp, by simp [hlen], ?_, rfl, rfl⟩
    show (s ++ [0]).getD t.end_ 1 = 0
    rw [hlen]
    exact getD_concat_self s 0
  | null => exact absurd href hnn

theorem extendLineBuffer_true_facts {t : Tinyrl} {len : Nat} {a : Bool}
    (hlen : t.buffer.length = t.buffer_size + 1)
    (h : (extendLineBuffer t len a).2 = true) :
    ∃ k, (extendLineBuffer t len a).1.buffer = t.buffer ++ List.replicate k 0 ∧
      (extendLineBuffer t len a).1.buffer.length =
        (extendLineBuffer t len a).1.buffer_size + 1 ∧
      len ≤ (extendLineBuffer t len a).1.buffer_size ∧
      (extendLineBuffer t len a).1.point = t.point ∧
      (extendLineBuffer t len a).1.end_ = t.end_ := by
  by_cases hlt : t.buffer_size < len
  · by_cases hm : t.max_line_length = 0
    · cases a with
      | false => simp [extendLineBuffer, hlt, hm, ding] at h
      | true =>
        have hle : t.buffer.length ≤ max len (t.buffer_size + 10) + 1 := by
          rw [hlen]; omega
        have heq : extendLineBuffer t len true =
            ({ t with buffer := reallocList t.buffer (max len (t.buffer_size + 10) + 1),
                      buffer_size := max len (t.buffer_size + 10), lineRef := .owned },
             true) := by
          simp [extendLineBuffer, hlt, hm]
        refine ⟨max len (t.buffer_size + 10) + 1 - t.buffer.length, ?_⟩
        rw [heq, reallocList_of_le hle]
        refine ⟨rfl, ?_, le_max_left _ _, rfl, rfl⟩
        simp only [List.length_append, List.length_replicate, hlen]
        omega
    · by_cases hml : len < t.max_line_length
      · cases a with
        | false => simp [extendLineBuffer, hlt, hm, hml, ding] at h
        | true =>
          have hle : t.buffer.length ≤ t.max_line_length := by rw [hlen]; omega
          have heq : extendLineBuffer t len true =
              ({ t with buffer := reallocList t.buffer t.max_line_length,
                        buffer_size := t.max_line_length - 1, lineRef := .owned },
               true) := by
            simp [extendLineBuffer, hlt, hm, hml]
          refine ⟨t.max_line_length - t.buffer.length, ?_⟩
          rw [heq, reallocList_of_le hle]
          refine ⟨rfl, ?_, by show len ≤ t.max_line_length - 1; omega, rfl, rfl⟩
          simp only [List.length_append, List.length_replicate, hlen]
          omega
      · simp [extendLineBuffer, hlt, hm, hml, ding] at h
  · refine ⟨0, ?_⟩
    simp [extendLineBuffer, hlt]
    omega

/-- C1: whenever `insert_text(t)` (equivalently `insert_text_len(t, len t)`)
returns true on a well-formed session, `end` and `point` both advance by
`len t`, the bytes at `[point, point + len t)` are exactly `t`, the former
prefix of the line is unchanged, and the former suffix `[point, end]`
(terminator included) reappears shifted right by `len t`. -/
theorem insert_text_spec (t : Tinyrl) (s : List Nat) (a : Bool)
    (hwf : WFLine t) (hs : 0 ∉ s)
    (hok : (insertTextLen t s s.length a).2 = true) :
    insertText t s a = insertTextLen t s s.length a ∧
    (insertTextLen t s s.length a).1.end_ = t.end_ + s.length ∧
    (insertTextLen t s s.length a).1.point = t.point + s.length ∧
    ((insertTextLen t s s.length a).1.buffer.drop t.point).take s.length = s ∧
    (insertTextLen t s s.length a).1.buffer.take t.point = (lineArr t).take t.point ∧
    ((insertTextLen t s s.length a).1.buffer.drop (t.point + s.length)).take
        (t.end_ + 1 - t.point) =
      ((lineArr t).drop t.point).take (t.end_ + 1 - t.point) := by
  have hPE : t.point ≤ t.end_ := hwf.1
  obtain ⟨hb1, hlen1, hE1, hterm1, hp1, he1⟩ := changedLine_facts hwf
  have hsn : strncpyBytes s s.length = s := by
    simp [strncpyBytes, cstr_of_not_mem hs]
  -- name the extension step and split on its outcome
  rcases hE : (if s.length + (changedLine t).end_ > (changedLine t).buffer_size
      then extendLineBuffer (changedLine t) ((changedLine t).end_ + s.length) a
      else ((changedLine t), true)) with ⟨t2, ok⟩
  have hred : insertTextLen t s s.length a =
      (let buf1 :=
        if t2.point < t2.end_ then
          memwrite t2.buffer (t2.point + s.length)
            ((t2.buffer.drop t2.point).take (t2.end_ - t2.point + 1))
        else
          t2.buffer.set (t2.end_ + s.length) 0
      if ok then
        ({ t2 with buffer := memwrite buf1 t2.point (strncpyBytes s s.length),
                   point := t2.point + s.length, end_ := t2.end_ + s.length }, true)
      else (t2, false)) := by
    rw [insertTextLen, hE]
    cases ok <;> rfl
  cases ok with
  | false => rw [hred] at hok; simp at hok
  | true =>
    simp only [if_true] at hred
    -- facts about the post-extension session
    have ht2 : ∃ k, t2.buffer = (changedLine t).buffer ++ List.replicate k 0 ∧
        t2.buffer.length = t2.buffer_size + 1 ∧
        t.end_ + s.length ≤ t2.buffer_size ∧
        t2.point = t.point ∧ t2.end_ = t.end_ := by
      by_cases hc : s.length + (changedLine t).end_ > (changedLine t).buffer_size
      · rw [if_pos hc] at hE
        have hok2 : (extendLineBuffer (changedLine t)
            ((changedLine t).end_ + s.length) a).2 = true := by rw [hE]
        obtain ⟨k, hbuf, hl, hle, hp, he⟩ := extendLineBuffer_true_facts hlen1 hok2
        rw [hE] at hbuf hl hle hp he
        dsimp only at hbuf hl hle hp he
        exact ⟨k, hbuf, hl, by omega, by rw [hp, hp1], by rw [he, he1]⟩
      · rw [if_neg hc] at hE
        cases hE
        exact ⟨0, by simp, hlen1, by omega, hp1, he1⟩
    obtain ⟨k, hbufk, hlen2, hEn2, hp2, he2⟩ := ht2
    have hlenL2 : t.end_ + s.length + 1 ≤ t2.buffer.length := by omega
    have hlenL1 : t.end_ + 1 ≤ (changedLine t).buffer.length := by
      rw [hlen1]; omega
    refine ⟨by simp [insertText, cstr_of_not_mem hs], ?_, ?_, ?_, ?_, ?_⟩
    · rw [hred]; simp [he2]
    · rw [hred]; simp [hp2]
    · -- inserted bytes
      rw [hred]
      dsimp only
      rw [hsn, hp2, he2]
      have hbl : (if t.point < t.end_ then
          memwrite t2.buffer (t.point + s.length)
            ((t2.buffer.drop t.point).take (t.end_ - t.point + 1))
        else t2.buffer.set (t.end_ + s.length) 0).length = t2.buffer.length := by
        by_cases hpe : t.point < t.end_
        · rw [if_pos hpe]
          apply length_memwrite
          simp only [List.length_take, List.length_drop]
          omega
        · rw [if_neg hpe]; simp
      rw [drop_memwrite_start (by rw [hbl]; omega)]
      rw [List.take_left' rfl]
    · -- former prefix unchanged
      rw [hred]
      dsimp only
      rw [hsn, hp2, he2]
      by_cases hpe : t.point < t.end_
      · rw [if_pos hpe]
        have hml : (memwrite t2.buffer (t.point + s.length)
            ((t2.buffer.drop t.point).take (t.end_ - t.point + 1))).length =
            t2.buffer.length := by
          apply length_memwrite
          simp only [List.length_take, List.length_drop]
          omega
        rw [take_memwrite_le (le_refl t.point) (by rw [hml]; omega)]
        rw [take_memwrite_le (by omega) (by omega)]
        rw [hbufk, List.take_append_of_le_length (by omega), hb1]
      · rw [if_neg hpe]
        rw [take_memwrite_le (le_refl t.point) (by simp only [List.length_set]; omega)]
        rw [take_set_of_le (by omega)]
        rw [hbufk, List.take_append_of_le_length (by omega), hb1]
    · -- former suffix shifted right, terminator included
      rw [hred]
      dsimp only
      rw [hsn, hp2, he2]
      by_cases hpe : t.point < t.end_
      · rw [if_pos hpe]
        have hslice : ((t2.buffer.drop t.point).take (t.end_ - t.point + 1)).length =
            t.end_ - t.point + 1 := by
          simp only [List.length_take, List.length_drop]
          omega
        have hml : (memwrite t2.buffer (t.point + s.length)
            ((t2.buffer.drop t.point).take (t.end_ - t.point + 1))).length =
            t2.buffer.length := by
          apply length_memwrite
          rw [hslice]
          omega
        rw [drop_memwrite_past (by rw [hml]; omega)]
        rw [drop_memwrite_start (by omega)]
        have htp : t.end_ + 1 - t.point = t.end_ - t.point + 1 := by omega
        rw [htp, List.take_left' hslice]
        rw [hbufk, List.drop_append_of_le_length (by omega),
          List.take_append_of_le_length (by simp only [List.length_drop]; omega), hb1]
      · rw [if_neg hpe]
        have hPeq : t.point = t.end_ := by omega
        rw [drop_memwrite_past (by simp only [List.length_set]; omega)]
        rw [hPeq]
        rw [drop_set_self (by omega)]
        have ht1 : t.end_ + 1 - t.end_ = 1 := by omega
        rw [ht1]
        have hrhs : (lineArr t).drop t.end_ = 0 :: (lineArr t).drop (t.end_ + 1) := by
          rw [← hb1]
          have hEl : t.end_ < (changedLine t).buffer.length := by omega
          rw [List.drop_eq_getElem_cons hEl]
          congr 1
          rw [List.getD_eq_getElem _ _ hEl] at hterm1
          exact hterm1
        rw [hrhs]
        simp

/-- C1 witness: inserting the two bytes `"hi"` into a fresh readline session
advances `end` to 2 and stores the bytes at the cursor. -/
theorem insert_text_spec_witness :
    (insertTextLen (readlineInit tinyrlNew []) [104, 105] 2 true).1.end_ = 2 ∧
    ((insertTextLen (readlineInit tinyrlNew []) [104, 105] 2 true).1.buffer.drop 0).take 2
      = [104, 105] := by
  have hwf : WFLine (readlineInit tinyrlNew []) := by
    refine ⟨by decide, by decide, fun _ => ⟨by decide, by decide, by decide⟩,
      fun sx hx => absurd hx (by simp [readlineInit, tinyrlNew])⟩
  have h := insert_text_spec (readlineInit tinyrlNew []) [104, 105] true hwf
    (by decide) (by decide)
  exact ⟨h.2.1, h.2.2.2.1⟩

/-! ### C2 — `delete_text` -/

/-- C2: for a well-formed session and offsets `a ≤ b ≤ end`,
`delete_text(a, b)` drops `end` by `b - a`, moves the bytes from offset `b`
onward (terminator included) left to offset `a`, and clamps the cursor:
shifted down by the delta when `point ≥ b`, snapped to `a` when
`a < point < b`, untouched otherwise. -/
theorem delete_text_spec (t : Tinyrl) (a b : Nat) (hab : a ≤ b) (hbe : b ≤ t.end_)
    (hwf : WFLine t) :
    (deleteText t a b).end_ = t.end_ - (b - a) ∧
    (deleteText t a b).point =
      (if b ≤ t.point then t.point - (b - a)
       else if a < t.point then a else t.point) ∧
    ((lineArr (deleteText t a b)).drop a).take (t.end_ + 1 - b) =
      ((lineArr t).drop b).take (t.end_ + 1 - b) := by
  rcases eq_or_lt_of_le hab with heq | hlt
  · subst heq
    have hd : deleteText t a a = t := by simp [deleteText]
    rw [hd]
    refine ⟨by omega, ?_, rfl⟩
    split_ifs <;> omega
  · obtain ⟨hb1, hlen1, hE1, hterm1, hp1, he1⟩ := changedLine_facts hwf
    have hne : ¬ b = a := by omega
    have hred : deleteText t a b =
        { changedLine t with
          buffer := memwrite (changedLine t).buffer a
            (((changedLine t).buffer.drop (a + (b - a))).take ((changedLine t).end_ + 1 - b)),
          end_ := (changedLine t).end_ - (b - a),
          point :=
            if (changedLine t).point > b then (changedLine t).point - (b - a)
            else if (changedLine t).point > a then a
            else (changedLine t).point } := by
      rw [deleteText, if_neg hne]
    have hab2 : a + (b - a) = b := by omega
    rw [hred]
    dsimp only
    rw [hab2, hp1, he1]
    refine ⟨rfl, by split_ifs <;> omega, ?_⟩
    have hlref : (changedLine t).lineRef = .owned := by
      cases href : t.lineRef with
      | owned => simp [changedLine, href]
      | ext s => simp [changedLine, href]
      | null => exact absurd href hwf.2.1
    have hla : lineArr { changedLine t with
        buffer := memwrite (changedLine t).buffer a
          (((changedLine t).buffer.drop b).take (t.end_ + 1 - b)),
        end_ := t.end_ - (b - a),
        point :=
          if t.point > b then t.point - (b - a)
          else if t.point > a then a
          else t.point } = memwrite (changedLine t).buffer a
            (((changedLine t).buffer.drop b).take (t.end_ + 1 - b)) := by
      simp [lineArr, hlref]
    rw [hla]
    have hsrc : (((changedLine t).buffer.drop b).take (t.end_ + 1 - b)).length =
        t.end_ + 1 - b := by
      simp only [List.length_take, List.length_drop]
      omega
    rw [drop_memwrite_start (by omega)]
    rw [List.take_left' hsrc, hb1]

/-- C2 witness: deleting the first byte of `"hi"` in a concrete session. -/
theorem delete_text_spec_witness :
    (deleteText (insertTextLen (readlineInit tinyrlNew []) [104, 105] 2 true).1 0 1).end_ = 1 ∧
    (deleteText (insertTextLen (readlineInit tinyrlNew []) [104, 105] 2 true).1 0 1).point = 1 := by
  have hwf : WFLine (insertTextLen (readlineInit tinyrlNew []) [104, 105] 2 true).1 := by
    have hlr : (insertTextLen (readlineInit tinyrlNew []) [104, 105] 2 true).1.lineRef =
        LineRef.owned := by decide
    refine ⟨by decide, by decide, fun _ => ⟨by decide, by decide, by decide⟩,
      fun sx hx => ?_⟩
    rw [hlr] at hx
    cases hx
  have h := delete_text_spec (insertTextLen (readlineInit tinyrlNew []) [104, 105] 2 true).1
    0 1 (by decide) (by decide) hwf
  exact ⟨h.1, h.2.1⟩

/-! ### C3 — the session invariant over reachable states -/

theorem getD_via_drop (l : List Nat) (j d : Nat) : l.getD j d = (l.drop j).headD d := by
  induction l generalizing j with
  | nil => simp
  | cons a l ih =>
    cases j with
    | zero => simp
    | succ m => simp only [List.getD_cons_succ, List.drop_succ_cons]; exact ih m

theorem getD_memwrite_ge {l src : List Nat} {i j : Nat} (d : Nat)
    (h1 : i ≤ l.length) (h2 : i + src.length ≤ j) :
    (memwrite l i src).getD j d = l.getD j d := by
  have h3 : ((memwrite l i src).drop (i + src.length)).drop (j - (i + src.length)) =
      (memwrite l i src).drop j := by
    rw [List.drop_drop]
    congr 1
    omega
  have h4 : (l.drop (i + src.length)).drop (j - (i + src.length)) = l.drop j := by
    rw [List.drop_drop]
    congr 1
    omega
  rw [getD_via_drop, getD_via_drop, ← h3, ← h4, drop_memwrite_past h1]

theorem getD_memwrite_in {l src : List Nat} {i m : Nat} (d : Nat)
    (h1 : i ≤ l.length) (hm : m < src.length) :
    (memwrite l i src).getD (i + m) d = src.getD m d := by
  have h3 : (memwrite l i src).drop (i + m) = ((memwrite l i src).drop i).drop m := by
    rw [List.drop_drop]
  rw [getD_via_drop, h3, drop_memwrite_start h1, ← getD_via_drop]
  exact List.getD_append _ _ _ _ hm

theorem getD_set_self {l : List Nat} {n v : Nat} (d : Nat) (h : n < l.length) :
    (l.set n v).getD n d = v := by
  rw [getD_via_drop, drop_set_self h]
  rfl

theorem mem_of_getD_zero {l : List Nat} {n : Nat} (h : l.getD n 1 = 0) : (0 : Nat) ∈ l := by
  have hn : n < l.length := by
    by_contra hc
    rw [List.getD_eq_default _ _ (by omega)] at h
    exact one_ne_zero h
  rw [List.getD_eq_getElem _ _ hn] at h
  exact h ▸ List.getElem_mem hn

theorem cstr_facts_of_mem {l : List Nat} (h : (0 : Nat) ∈ l) :
    (cstr l).length < l.length ∧ l.getD (cstr l).length 1 = 0 := by
  induction l with
  | nil => simp at h
  | cons a l ih =>
    by_cases ha : a = 0
    · subst ha
      simp [cstr]
    · have h0 : (0 : Nat) ∈ l := by
        rcases List.mem_cons.mp h with h1 | h1
        · exact absurd h1.symm ha
        · exact h1
      obtain ⟨ih1, ih2⟩ := ih h0
      have hc : cstr (a :: l) = a :: cstr l := by
        simp [cstr, ha]
      rw [hc]
      constructor
      · simp only [List.length_cons]
        omega
      · simpa using ih2

/-- The state invariant that actually holds at every reachable state: the
cursor stays within the line, a non-empty buffer's allocation is
`buffer_size + 1` bytes and contains a NUL, the owned line fits the buffer
and carries its terminator, and an external line has `end = strlen(line)`. -/
def SessionInv (t : Tinyrl) : Prop :=
  t.point ≤ t.end_ ∧
  (t.buffer = [] → t.buffer_size = 0) ∧
  (t.buffer ≠ [] → t.buffer.length = t.buffer_size + 1 ∧ (0 : Nat) ∈ t.buffer) ∧
  (t.lineRef = .owned → t.end_ ≤ t.buffer_size ∧
    (t.buffer ≠ [] → t.buffer.getD t.end_ 1 = 0)) ∧
  (∀ s, t.lineRef = .ext s → t.end_ = (cstr s).length)

theorem inv_changedLine_facts {t : Tinyrl} (h : SessionInv t) (hn : t.lineRef ≠ .null) :
    (changedLine t).lineRef = .owned ∧
    (changedLine t).point = t.point ∧
    (changedLine t).end_ = t.end_ ∧
    (changedLine t).max_line_length = t.max_line_length ∧
    t.end_ ≤ (changedLine t).buffer_size ∧
    ((changedLine t).buffer = [] → (changedLine t).buffer_size = 0) ∧
    ((changedLine t).buffer ≠ [] →
      (changedLine t).buffer.length = (changedLine t).buffer_size + 1 ∧
      (0 : Nat) ∈ (changedLine t).buffer ∧
      (changedLine t).buffer.getD t.end_ 1 = 0) := by
  obtain ⟨hpe, hemp, hne, how, hex⟩ := h
  cases href : t.lineRef with
  | owned =>
    have hcl : changedLine t = t := by simp [changedLine, href]
    rw [hcl]
    exact ⟨href, rfl, rfl, rfl, (how href).1, hemp,
      fun hb => ⟨(hne hb).1, (hne hb).2, (how href).2 hb⟩⟩
  | ext s =>
    have hcl : changedLine t =
        { t with lineRef := .owned, buffer := cstr s ++ [0],
                 buffer_size := (cstr s).length } := by
      simp [changedLine, href]
    have hEe : t.end_ = (cstr s).length := hex s href
    rw [hcl]
    refine ⟨rfl, rfl, rfl, rfl, by simp [hEe], by simp, fun _ => ⟨by simp, by simp, ?_⟩⟩
    show (cstr s ++ [0]).getD t.end_ 1 = 0
    rw [hEe]
    exact getD_concat_self _ 0
  | null => exact absurd href hn

theorem extend_true_facts2 {t : Tinyrl} {len : Nat} {a : Bool}
    (hA : t.buffer = [] → t.buffer_size = 0)
    (hB : t.buffer ≠ [] → t.buffer.length = t.buffer_size + 1)
    (h : (extendLineBuffer t len a).2 = true) :
    ∃ k, (extendLineBuffer t len a).1.buffer = t.buffer ++ List.replicate k 0 ∧
      ((extendLineBuffer t len a).1.buffer = [] →
        (extendLineBuffer t len a).1.buffer_size = 0) ∧
      ((extendLineBuffer t len a).1.buffer ≠ [] →
        (extendLineBuffer t len a).1.buffer.length =
          (extendLineBuffer t len a).1.buffer_size + 1) ∧
      len ≤ (extendLineBuffer t len a).1.buffer_size ∧
      (extendLineBuffer t len a).1.point = t.point ∧
      (extendLineBuffer t len a).1.end_ = t.end_ ∧
      (extendLineBuffer t len a).1.max_line_length = t.max_line_length ∧
      (t.lineRef = .owned → (extendLineBuffer t len a).1.lineRef = .owned) := by
  have hlen : t.buffer.length = t.buffer_size + 1 ∨ (t.buffer = [] ∧ t.buffer_size = 0) := by
    by_cases hb : t.buffer = []
    · exact Or.inr ⟨hb, hA hb⟩
    · exact Or.inl (hB hb)
  by_cases hlt : t.buffer_size < len
  · by_cases hm : t.max_line_length = 0
    · cases a with
      | false => simp [extendLineBuffer, hlt, hm, ding] at h
      | true =>
        have hle : t.buffer.length ≤ max len (t.buffer_size + 10) + 1 := by
          rcases hlen with h1 | ⟨h1, h2⟩
          · rw [h1]; omega
          · rw [h1]; simp
        have heq : extendLineBuffer t len true =
            ({ t with buffer := reallocList t.buffer (max len (t.buffer_size + 10) + 1),
                      buffer_size := max len (t.buffer_size + 10), lineRef := .owned },
             true) := by
          simp [extendLineBuffer, hlt, hm]
        refine ⟨max len (t.buffer_size + 10) + 1 - t.buffer.length, ?_⟩
        rw [heq, reallocList_of_le hle]
        refine ⟨rfl, ?_, ?_, le_max_left _ _, rfl, rfl, rfl, fun _ => rfl⟩
        · intro hb
          dsimp only at hb
          have hlb := congrArg List.length hb
          simp only [List.length_append, List.length_replicate, List.length_nil] at hlb
          exact absurd hlb (by omega)
        · intro _
          show (t.buffer ++ _).length = max len (t.buffer_size + 10) + 1
          simp only [List.length_append, List.length_replicate]
          omega
    · by_cases hml : len < t.max_line_length
      · cases a with
        | false => simp [extendLineBuffer, hlt, hm, hml, ding] at h
        | true =>
          have hle : t.buffer.length ≤ t.max_line_length := by
            rcases hlen with h1 | ⟨h1, h2⟩
            · rw [h1]; omega
            · rw [h1]; simp
          have heq : extendLineBuffer t len true =
              ({ t with buffer := reallocList t.buffer t.max_line_length,
                        buffer_size := t.max_line_length - 1, lineRef := .owned },
               true) := by
            simp [extendLineBuffer, hlt, hm, hml]
          refine ⟨t.max_line_length - t.buffer.length, ?_⟩
          rw [heq, reallocList_of_le hle]
          refine ⟨rfl, ?_, ?_, by show len ≤ t.max_line_length - 1; omega,
            rfl, rfl, rfl, fun _ => rfl⟩
          · intro hb
            dsimp only at hb
            have hlb := congrArg List.length hb
            simp only [List.length_append, List.length_replicate, List.length_nil] at hlb
            exact absurd hlb (by omega)
          · intro _
            show (t.buffer ++ _).length = t.max_line_length - 1 + 1
            simp only [List.length_append, List.length_replicate]
            omega
      · simp [extendLineBuffer, hlt, hm, hml, ding] at h
  · have heq : extendLineBuffer t len a = (t, true) := by
      simp [extendLineBuffer, hlt]
    rw [heq]
    exact ⟨0, by simp, hA, hB, by show len ≤ t.buffer_size; omega, rfl, rfl, rfl,
      fun hx => hx⟩

theorem strncpyBytes_length (text : List Nat) (n : Nat) :
    (strncpyBytes text n).length = n := by
  simp only [strncpyBytes, List.length_append, List.length_take, List.length_replicate]
  omega

theorem getD_drop_add (l : List Nat) (i m d : Nat) :
    (l.drop i).getD m d = l.getD (i + m) d := by
  rw [getD_via_drop, getD_via_drop, List.drop_drop]

theorem getD_take_lt {l : List Nat} {nn m : Nat} (d : Nat) (h : m < nn) :
    (l.take nn).getD m d = l.getD m d := by
  induction l generalizing nn m with
  | nil => simp
  | cons a l ih =>
    cases nn with
    | zero => omega
    | succ k =>
      cases m with
      | zero => rfl
      | succ m2 =>
        simp only [List.take_succ_cons, List.getD_cons_succ]
        exact ih (by omega)

theorem extend_false {t : Tinyrl} {len : Nat} {a : Bool}
    (h : (extendLineBuffer t len a).2 = false) :
    (extendLineBuffer t len a).1 = ding t := by
  by_cases hlt : t.buffer_size < len
  · by_cases hm : t.max_line_length = 0
    · cases a with
      | true => simp [extendLineBuffer, hlt, hm] at h
      | false => simp [extendLineBuffer, hlt, hm]
    · by_cases hml : len < t.max_line_length
      · cases a with
        | true => simp [extendLineBuffer, hlt, hm, hml] at h
        | false => simp [extendLineBuffer, hlt, hm, hml]
      · simp [extendLineBuffer, hlt, hm, hml]
  · simp [extendLineBuffer, hlt] at h

theorem inv_changedLine {t : Tinyrl} (h : SessionInv t) (hn : t.lineRef ≠ .null) :
    SessionInv (changedLine t) := by
  obtain ⟨F1, F2, F3, F4, F5, F6, F7⟩ := inv_changedLine_facts h hn
  refine ⟨?_, F6, fun hb => ⟨(F7 hb).1, (F7 hb).2.1⟩, fun _ => ⟨?_, fun hb => ?_⟩,
    fun s hs => ?_⟩
  · rw [F2, F3]; exact h.1
  · rw [F3]; exact F5
  · rw [F3]; exact (F7 hb).2.2
  · rw [F1] at hs; cases hs

theorem inv_insertTextLen {t : Tinyrl} (text : List Nat) (n : Nat) (a : Bool)
    (h : SessionInv t) (hn : t.lineRef ≠ .null) :
    SessionInv (insertTextLen t text n a).1 := by
  obtain ⟨F1, F2, F3, F4, F5, F6, F7⟩ := inv_changedLine_facts h hn
  have hPE : t.point ≤ t.end_ := h.1
  rcases hE : (if n + (changedLine t).end_ > (changedLine t).buffer_size
      then extendLineBuffer (changedLine t) ((changedLine t).end_ + n) a
      else ((changedLine t), true)) with ⟨t2, ok⟩
  have hred : (insertTextLen t text n a).1 =
      (if ok then
        ({ t2 with
           buffer := memwrite
             (if t2.point < t2.end_ then
               memwrite t2.buffer (t2.point + n)
                 ((t2.buffer.drop t2.point).take (t2.end_ - t2.point + 1))
             else t2.buffer.set (t2.end_ + n) 0)
             t2.point (strncpyBytes text n),
           point := t2.point + n, end_ := t2.end_ + n } : Tinyrl)
      else t2) := by
    rw [insertTextLen, hE]
    cases ok <;> rfl
  cases ok with
  | false =>
    rw [hred, if_neg (by exact Bool.false_ne_true)]
    by_cases hc : n + (changedLine t).end_ > (changedLine t).buffer_size
    · rw [if_pos hc] at hE
      have hfail : (extendLineBuffer (changedLine t) ((changedLine t).end_ + n) a).2
          = false := by rw [hE]
      have hding := extend_false hfail
      rw [hE] at hding
      rw [show t2 = ding (changedLine t) from hding]
      exact inv_changedLine h hn
    · rw [if_neg hc] at hE
      cases hE
  | true =>
    rw [hred, if_pos rfl]
    have ht2 : ∃ k, t2.buffer = (changedLine t).buffer ++ List.replicate k 0 ∧
        (t2.buffer = [] → t2.buffer_size = 0) ∧
        (t2.buffer ≠ [] → t2.buffer.length = t2.buffer_size + 1) ∧
        t.end_ + n ≤ t2.buffer_size ∧
        t2.point = t.point ∧ t2.end_ = t.end_ ∧ t2.lineRef = .owned := by
      by_cases hc : n + (changedLine t).end_ > (changedLine t).buffer_size
      · rw [if_pos hc] at hE
        have hok2 : (extendLineBuffer (changedLine t)
            ((changedLine t).end_ + n) a).2 = true := by rw [hE]
        obtain ⟨k, hbuf, hbe, hbne, hle, hp, he, hmx, hlr⟩ :=
          extend_true_facts2 F6 (fun hb => (F7 hb).1) hok2
        rw [hE] at hbuf hbe hbne hle hp he hlr
        dsimp only at hbuf hbe hbne hle hp he hlr
        exact ⟨k, hbuf, hbe, hbne, by omega, by rw [hp, F2], by rw [he, F3], hlr F1⟩
      · rw [if_neg hc] at hE
        cases hE
        exact ⟨0, by simp, F6, fun hb => (F7 hb).1, by omega, F2, F3, F1⟩
    obtain ⟨k, hbufk, hbe2, hbne2, hEn2, hp2, he2, hlr2⟩ := ht2
    rw [hp2, he2]
    by_cases hbz : t2.buffer = []
    · -- NULL/empty allocation: forces n = end = point = 0 and nothing happens
      have hbs0 : t2.buffer_size = 0 := hbe2 hbz
      have hn0 : n = 0 := by omega
      have he0 : t.end_ = 0 := by omega
      have hp0 : t.point = 0 := by omega
      have hbuf1 : (if t.point < t.end_ then
          memwrite t2.buffer (t.point + n)
            ((t2.buffer.drop t.point).take (t.end_ - t.point + 1))
        else t2.buffer.set (t.end_ + n) 0) = t2.buffer := by
        rw [if_neg (by omega), hbz]
        rfl
      rw [hbuf1]
      have hB : memwrite t2.buffer t.point (strncpyBytes text n) = [] := by
        rw [hbz, hn0, hp0]
        simp [memwrite, strncpyBytes]
      rw [hB]
      dsimp only [SessionInv]
      refine ⟨by omega, fun _ => hbs0, fun hne => absurd rfl hne,
        fun _ => ⟨by omega, fun hne => absurd rfl hne⟩, fun s hs => ?_⟩
      rw [hlr2] at hs
      cases hs
    · -- live allocation
      have hlen2 : t2.buffer.length = t2.buffer_size + 1 := hbne2 hbz
      have hlenL2 : t.end_ + n + 1 ≤ t2.buffer.length := by omega
      have hsl : (strncpyBytes text n).length = n := strncpyBytes_length text n
      have hbuf1len : (if t.point < t.end_ then
          memwrite t2.buffer (t.point + n)
            ((t2.buffer.drop t.point).take (t.end_ - t.point + 1))
        else t2.buffer.set (t.end_ + n) 0).length = t2.buffer.length := by
        by_cases hpe : t.point < t.end_
        · rw [if_pos hpe]
          apply length_memwrite
          simp only [List.length_take, List.length_drop]
          omega
        · rw [if_neg hpe]
          simp
      have hBlen : (memwrite
          (if t.point < t.end_ then
            memwrite t2.buffer (t.point + n)
              ((t2.buffer.drop t.point).take (t.end_ - t.point + 1))
          else t2.buffer.set (t.end_ + n) 0)
          t.point (strncpyBytes text n)).length = t2.buffer.length := by
        rw [length_memwrite (by rw [hsl, hbuf1len]; omega), hbuf1len]
      have hterm : (memwrite
          (if t.point < t.end_ then
            memwrite t2.buffer (t.point + n)
              ((t2.buffer.drop t.point).take (t.end_ - t.point + 1))
          else t2.buffer.set (t.end_ + n) 0)
          t.point (strncpyBytes text n)).getD (t.end_ + n) 1 = 0 := by
        rw [getD_memwrite_ge 1 (by rw [hbuf1len]; omega) (by rw [hsl]; omega)]
        by_cases hpe : t.point < t.end_
        · rw [if_pos hpe]
          -- the terminator travels with the moved block
          have ht1ne : (changedLine t).buffer ≠ [] := by
            intro hcb
            have h6 := F6 hcb
            omega
          have hlen1 := (F7 ht1ne).1
          have hslice : ((t2.buffer.drop t.point).take (t.end_ - t.point + 1)).length =
              t.end_ - t.point + 1 := by
            simp only [List.length_take, List.length_drop]
            omega
          have hsplit : t.end_ + n = (t.point + n) + (t.end_ - t.point) := by omega
          rw [hsplit, getD_memwrite_in 1 (by omega) (by rw [hslice]; omega)]
          rw [getD_take_lt 1 (by omega), getD_drop_add]
          have hpt : t.point + (t.end_ - t.point) = t.end_ := by omega
          rw [hpt, hbufk, List.getD_append _ _ _ _ (by omega)]
          exact (F7 ht1ne).2.2
        · rw [if_neg hpe]
          exact getD_set_self 1 (by omega)
      dsimp only [SessionInv]
      refine ⟨by omega, fun hb => ?_, fun _ => ⟨by rw [hBlen, hlen2], ?_⟩,
        fun _ => ⟨by omega, fun _ => hterm⟩, fun s hs => ?_⟩
      · have := congrArg List.length hb
        rw [hBlen] at this
        simp only [List.length_nil] at this
        omega
      · exact mem_of_getD_zero hterm
      · rw [hlr2] at hs
        cases hs

theorem inv_deleteText {t : Tinyrl} (a b : Nat) (h : SessionInv t)
    (hn : t.lineRef ≠ .null) (hab : a ≤ b) (hbe : b ≤ t.end_) :
    SessionInv (deleteText t a b) := by
  rcases eq_or_lt_of_le hab with heq | hlt
  · subst heq
    have hd : deleteText t a a = t := by simp [deleteText]
    rw [hd]
    exact h
  · obtain ⟨F1, F2, F3, F4, F5, F6, F7⟩ := inv_changedLine_facts h hn
    have hPE : t.point ≤ t.end_ := h.1
    have hne1 : (changedLine t).buffer ≠ [] := by
      intro hcb
      have := F6 hcb
      omega
    have hlen1 := (F7 hne1).1
    have hterm1 := (F7 hne1).2.2
    have hne : ¬ b = a := by omega
    have hred : deleteText t a b =
        { changedLine t with
          buffer := memwrite (changedLine t).buffer a
            (((changedLine t).buffer.drop (a + (b - a))).take
              ((changedLine t).end_ + 1 - b)),
          end_ := (changedLine t).end_ - (b - a),
          point :=
            if (changedLine t).point > b then (changedLine t).point - (b - a)
            else if (changedLine t).point > a then a
            else (changedLine t).point } := by
      rw [deleteText, if_neg hne]
    have hab2 : a + (b - a) = b := by omega
    rw [hred, hab2, F2, F3]
    have hsrc : (((changedLine t).buffer.drop b).take (t.end_ + 1 - b)).length =
        t.end_ + 1 - b := by
      simp only [List.length_take, List.length_drop]
      omega
    have hBlen : (memwrite (changedLine t).buffer a
        (((changedLine t).buffer.drop b).take (t.end_ + 1 - b))).length =
        (changedLine t).buffer.length := by
      apply length_memwrite
      rw [hsrc]
      omega
    have hterm : (memwrite (changedLine t).buffer a
        (((changedLine t).buffer.drop b).take (t.end_ + 1 - b))).getD
        (t.end_ - (b - a)) 1 = 0 := by
      have hsplit : t.end_ - (b - a) = a + (t.end_ - b) := by omega
      rw [hsplit, getD_memwrite_in 1 (by omega) (by rw [hsrc]; omega)]
      rw [getD_take_lt 1 (by omega), getD_drop_add]
      have hbb : b + (t.end_ - b) = t.end_ := by omega
      rw [hbb]
      exact hterm1
    dsimp only [SessionInv]
    refine ⟨?_, fun hb => ?_, fun _ => ⟨by rw [hBlen, hlen1], mem_of_getD_zero hterm⟩,
      fun _ => ⟨by omega, fun _ => hterm⟩, fun s hs => ?_⟩
    · split_ifs <;> omega
    · have := congrArg List.length hb
      rw [hBlen] at this
      simp only [List.length_nil] at this
      omega
    · rw [F1] at hs
      cases hs

theorem inv_redisplay (u : Utf8) (w : Nat) (t : Tinyrl) (h : SessionInv t) :
    SessionInv (redisplay u w t) := h

theorem inv_setLine {t : Tinyrl} (o : Option (List Nat)) (h : SessionInv t) :
    SessionInv (setLine t o) := by
  cases o with
  | some s =>
    dsimp only [setLine, SessionInv]
    refine ⟨le_refl _, h.2.1, h.2.2.1, fun hw => ?_, fun s2 hs2 => ?_⟩
    · cases hw
    · cases hs2
      rfl
  | none =>
    dsimp only [setLine, SessionInv]
    by_cases hb : t.buffer = []
    · have h0 := h.2.1 hb
      rw [hb]
      refine ⟨le_refl _, fun _ => h0, fun hne => absurd rfl hne,
        fun _ => ⟨?_, fun hne => absurd rfl hne⟩, fun s2 hs2 => ?_⟩
      · show (cstr ([] : List Nat)).length ≤ t.buffer_size
        simp [cstr]
      · cases hs2
    · obtain ⟨hlen, hmem⟩ := h.2.2.1 hb
      obtain ⟨hlt, hgd⟩ := cstr_facts_of_mem hmem
      refine ⟨le_refl _, h.2.1, h.2.2.1, fun _ => ⟨by omega, fun _ => hgd⟩,
        fun s2 hs2 => ?_⟩
      cases hs2

theorem inv_replaceLine (u : Utf8) (w : Nat) {t : Tinyrl} (text : List Nat) (a : Bool)
    (h : SessionInv t) (how : t.lineRef = .owned) :
    SessionInv (replaceLine u w t text a) := by
  apply inv_redisplay
  cases hE2 : (extendLineBuffer t (cstr text).length a).2 with
  | false =>
    rw [if_neg (by exact Bool.false_ne_true)]
    rw [extend_false hE2]
    exact h
  | true =>
    rw [if_pos rfl]
    obtain ⟨k, hbuf, hbe, hbne, hle, hp, he, hmx, hlr⟩ :=
      extend_true_facts2 h.2.1 (fun hb => (h.2.2.1 hb).1) hE2
    by_cases hbz : (extendLineBuffer t (cstr text).length a).1.buffer = []
    · have hbs0 := hbe hbz
      have hn0 : (cstr text).length = 0 := by omega
      have hct : cstr text = [] := List.length_eq_zero.mp hn0
      have hB : memwrite (extendLineBuffer t (cstr text).length a).1.buffer 0
          (cstr text ++ [0]) = [0] := by
        rw [hbz, hct]
        rfl
      dsimp only [SessionInv]
      rw [hB]
      refine ⟨le_refl _, fun hx => ?_, fun _ => ⟨?_, by simp⟩,
        fun _ => ⟨hle, fun _ => ?_⟩, fun s2 hs2 => ?_⟩
      · cases hx
      · rw [hbs0]
        rfl
      · rw [hn0]
        rfl
      · rw [hlr how] at hs2
        cases hs2
    · have hlen2 := hbne hbz
      have hBlen : (memwrite (extendLineBuffer t (cstr text).length a).1.buffer 0
          (cstr text ++ [0])).length =
          (extendLineBuffer t (cstr text).length a).1.buffer.length := by
        apply length_memwrite
        simp only [List.length_append, List.length_cons, List.length_nil]
        omega
      have hterm : (memwrite (extendLineBuffer t (cstr text).length a).1.buffer 0
          (cstr text ++ [0])).getD (cstr text).length 1 = 0 := by
        have hz : (cstr text).length = 0 + (cstr text).length := by omega
        rw [hz, getD_memwrite_in 1 (by omega) (by simp)]
        exact getD_concat_self _ 0
      dsimp only [SessionInv]
      refine ⟨le_refl _, fun hb => ?_, fun _ => ⟨by rw [hBlen, hlen2],
        mem_of_getD_zero hterm⟩, fun _ => ⟨by omega, fun _ => hterm⟩, fun s2 hs2 => ?_⟩
      · have := congrArg List.length hb
        rw [hBlen] at this
        simp only [List.length_nil] at this
        omega
      · rw [hlr how] at hs2
        cases hs2

theorem inv_execHandler {t : Tinyrl} (u : Utf8) (w : Nat) (hh : Handler)
    (key : List Nat) (hu : WFUtf8 u) (h : SessionInv t) (hn : t.lineRef ≠ .null) :
    SessionInv (execHandler u w hh t key).1 := by
  cases hh with
  | default => exact inv_insertTextLen key (cstr key).length true h hn
  | crlf => exact h
  | interrupt => exact inv_deleteText 0 t.end_ h hn (Nat.zero_le _) (le_refl _)
  | startOfLine => exact ⟨Nat.zero_le _, h.2.1, h.2.2.1, h.2.2.2.1, h.2.2.2.2⟩
  | endOfLine => exact ⟨le_refl _, h.2.1, h.2.2.1, h.2.2.2.1, h.2.2.2.2⟩
  | kill =>
    exact inv_deleteText t.point t.end_ h hn h.1 (le_refl _)
  | yank =>
    dsimp only [execHandler, keyYank]
    cases hks : t.kill_string with
    | none => exact h
    | some ks => exact inv_insertTextLen ks (cstr ks).length true h hn
  | left =>
    dsimp only [execHandler]
    by_cases hp : t.point > 0
    · rw [if_pos hp]
      have hlt := hu.2.1 (lineArr t) t.end_ t.point hp
      exact ⟨by show u.graphemePrev (lineArr t) t.end_ t.point ≤ t.end_
                have := h.1; omega,
        h.2.1, h.2.2.1, fun hw => ⟨(h.2.2.2.1 hw).1, (h.2.2.2.1 hw).2⟩, h.2.2.2.2⟩
    · rw [if_neg hp]
      exact h
  | right =>
    dsimp only [execHandler]
    by_cases hp : t.point < t.end_
    · rw [if_pos hp]
      have hlt := hu.2.2 (lineArr t) t.end_ t.point hp
      exact ⟨hlt.2, h.2.1, h.2.2.1, fun hw => ⟨(h.2.2.2.1 hw).1, (h.2.2.2.1 hw).2⟩,
        h.2.2.2.2⟩
    · rw [if_neg hp]
      exact h
  | backspace =>
    dsimp only [execHandler]
    by_cases hp : t.point ≠ 0
    · rw [if_pos hp]
      have hlt := hu.1 (lineArr t) t.end_ t.point (by omega)
      have h1 : SessionInv { t with point := u.charPrev (lineArr t) t.end_ t.point } :=
        ⟨by show u.charPrev (lineArr t) t.end_ t.point ≤ t.end_; have := h.1; omega,
          h.2.1, h.2.2.1, fun hw => ⟨(h.2.2.2.1 hw).1, (h.2.2.2.1 hw).2⟩, h.2.2.2.2⟩
      exact inv_deleteText _ _ h1 hn (by omega) h.1
    · rw [if_neg hp]
      exact h
  | delete =>
    dsimp only [execHandler]
    by_cases hp : t.point < t.end_
    · rw [if_pos hp]
      have hlt := hu.2.2 (lineArr t) t.end_ t.point hp
      exact inv_deleteText _ _ h hn (by omega) hlt.2
    · rw [if_neg hp]
      exact h
  | clearScreen =>
    exact inv_redisplay u w _ h
  | eraseLine =>
    have h1 := inv_deleteText 0 t.point h hn (Nat.zero_le _) h.1
    exact ⟨Nat.zero_le _, h1.2.1, h1.2.2.1, h1.2.2.2.1, h1.2.2.2.2⟩

theorem inv_stripTrailing {t : Tinyrl} (h : SessionInv t) (hn : t.lineRef ≠ .null) :
    SessionInv (stripTrailing t) := by
  rw [stripTrailing]
  split_ifs with hc
  · exact inv_deleteText _ _ h hn (by omega) (le_refl _)
  · exact h

theorem inv_readlineInit (t : Tinyrl) (p : List Nat) :
    SessionInv (readlineInit t p) := by
  dsimp only [readlineInit, SessionInv]
  refine ⟨le_refl _, fun hx => ?_, fun _ => ⟨rfl, by simp⟩,
    fun _ => ⟨le_refl _, fun _ => rfl⟩, fun s2 hs2 => ?_⟩
  · cases hx
  · cases hs2

/-- The operations an embedding application (or the read loop itself) can
apply to a session: the public mutators with their documented domains, the
built-in handlers, the display calls, and the loop-internal transitions.
Mutators that dereference `line` carry the obvious liveness side condition
(`line` not NULL); `replace_line` is applied while the session owns its
line, the way the read loop and a history browser use it. -/
inductive Step (u : Utf8) (w : Nat) : Tinyrl → Tinyrl → Prop where
  | insert (t : Tinyrl) (text : List Nat) (n : Nat) (a : Bool)
      (hn : t.lineRef ≠ .null) : Step u w t (insertTextLen t text n a).1
  | deleteS (t : Tinyrl) (a b : Nat) (h1 : a ≤ b) (h2 : b ≤ t.end_)
      (hn : t.lineRef ≠ .null) : Step u w t (deleteText t a b)
  | setl (t : Tinyrl) (o : Option (List Nat)) : Step u w t (setLine t o)
  | replacel (t : Tinyrl) (text : List Nat) (a : Bool) (how : t.lineRef = .owned) :
      Step u w t (replaceLine u w t text a)
  | handler (t : Tinyrl) (h : Handler) (key : List Nat) (hn : t.lineRef ≠ .null) :
      Step u w t (execHandler u w h t key).1
  | redisplayS (t : Tinyrl) : Step u w t (redisplay u w t)
  | resetS (t : Tinyrl) : Step u w t (resetLineState u w t)
  | initS (t : Tinyrl) (p : List Nat) : Step u w t (readlineInit t p)
  | eofS (t : Tinyrl) : Step u w t { t with done := true, lineRef := .null }
  | stripS (t : Tinyrl) (hn : t.lineRef ≠ .null) : Step u w t (stripTrailing t)
  | dingS (t : Tinyrl) : Step u w t (ding t)
  | doneS (t : Tinyrl) : Step u w t { t with done := true }
  | limitS (t : Tinyrl) (n : Nat) : Step u w t { t with max_line_length := n }
  | echoOnS (t : Tinyrl) : Step u w t { t with echo_enabled := true }
  | echoOffS (t : Tinyrl) (c : Nat) :
      Step u w t { t with echo_enabled := false, echo_char := c }

/-- The session states reachable from construction (`tinyrl_new`) by any
sequence of `Step`s. -/
inductive Reachable (u : Utf8) (w : Nat) : Tinyrl → Prop where
  | base : Reachable u w tinyrlNew
  | step {t t2 : Tinyrl} : Reachable u w t → Step u w t t2 → Reachable u w t2

theorem inv_tinyrlNew : SessionInv tinyrlNew := by
  dsimp only [tinyrlNew, SessionInv]
  refine ⟨le_refl _, fun _ => rfl, fun hx => absurd rfl hx,
    fun _ => ⟨le_refl _, fun hx => absurd rfl hx⟩, fun s2 hs2 => ?_⟩
  cases hs2

theorem inv_step {u : Utf8} {w : Nat} {t t2 : Tinyrl} (hu : WFUtf8 u)
    (h : SessionInv t) (hs : Step u w t t2) : SessionInv t2 := by
  cases hs with
  | insert text n a hn => exact inv_insertTextLen text n a h hn
  | deleteS a b h1 h2 hn => exact inv_deleteText a b h hn h1 h2
  | setl o => exact inv_setLine o h
  | replacel text a how => exact inv_replaceLine u w text a h how
  | handler hh key hn => exact inv_execHandler u w hh key hu h hn
  | redisplayS => exact inv_redisplay u w t h
  | resetS => exact inv_redisplay u w _ h
  | initS p => exact inv_readlineInit t p
  | eofS =>
    refine ⟨h.1, h.2.1, h.2.2.1, fun hw => ?_, fun s2 hs2 => ?_⟩
    · cases hw
    · cases hs2
  | stripS hn => exact inv_stripTrailing h hn
  | dingS => exact h
  | doneS => exact h
  | limitS n => exact h
  | echoOnS => exact h
  | echoOffS c => exact h

/-! ### C3 theorems -/

/-- C3 counterexample: the session reached by `set_line("hello")` right
after construction has `end = 5 > 0 = buffer_size`, so the claimed
invariant `point ≤ end ≤ buffer_size ∧ buffer[end] == 0` fails at a
reachable state. -/
theorem set_line_breaks_invariant :
    Reachable asciiUtf8 80 (setLine tinyrlNew (some [104, 101, 108, 108, 111])) ∧
    (setLine tinyrlNew (some [104, 101, 108, 108, 111])).end_ = 5 ∧
    (setLine tinyrlNew (some [104, 101, 108, 108, 111])).buffer_size = 0 ∧
    ¬ (setLine tinyrlNew (some [104, 101, 108, 108, 111])).end_ ≤
        (setLine tinyrlNew (some [104, 101, 108, 108, 111])).buffer_size :=
  ⟨Reachable.step Reachable.base (Step.setl tinyrlNew (some [104, 101, 108, 108, 111])),
   by decide, by decide, by decide⟩

/-- C3 amended: at every reachable session state, `0 ≤ point ≤ end`; the
buffer allocation tracks `buffer_size` (`buffer_size + 1` bytes when
allocated) and always contains a NUL; whenever `line == buffer`, also
`end ≤ buffer_size` and `buffer[end] == 0`; and when `line` is a
caller-supplied string, `end = strlen(line)` — but `end ≤ buffer_size`
itself does not survive `set_line` with a long external string. -/
theorem reachable_invariant (u : Utf8) (w : Nat) (t : Tinyrl) (hu : WFUtf8 u)
    (h : Reachable u w t) : SessionInv t := by
  induction h with
  | base => exact inv_tinyrlNew
  | step hr hs ih => exact inv_step hu ih hs

/-- C3 witness: the invariant at the constructed session, via the amended
theorem applied to the trivial reachability derivation. -/
theorem reachable_invariant_witness : SessionInv tinyrlNew :=
  reachable_invariant asciiUtf8 80 tinyrlNew wf_asciiUtf8 Reachable.base

/-! ### C9 — EOF in interactive mode abandons the line -/

theorem readtty_eof_aux (u : Utf8) (w : Nat) :
    ∀ (fuel : Nat) (t : Tinyrl) (evs : List (Option (List Nat))), evs.length < fuel →
      (readttyLoop u w fuel t evs).2 = true →
      (readttyLoop u w fuel t evs).1.lineRef = .null := by
  intro fuel
  induction fuel with
  | zero =>
    intro t evs hlen h
    exact absurd hlen (by omega)
  | succ n ih =>
    intro t evs hlen h
    by_cases hd : t.done
    · rw [readttyLoop, if_pos hd] at h
      exact absurd h Bool.false_ne_true
    · rw [readttyLoop, if_neg hd] at h ⊢
      cases evs with
      | nil => rfl
      | cons e rest =>
        cases e with
        | none => rfl
        | some key =>
          cases key with
          | nil => rfl
          | cons k1 ks =>
            simp only [List.length_cons] at hlen
            exact ih _ _ (by simp only [List.length_drop]; omega) h

/-- C9: in interactive mode, whenever the blocking key read returns EOF or a
read error at any point of the loop (the loop exits through its EOF branch),
`readline` returns NULL unconditionally — whatever was typed into the buffer
during the call is discarded, not returned. -/
theorem readtty_eof_returns_null (u : Utf8) (w : Nat) (t : Tinyrl) (prompt : List Nat)
    (evs : List (Option (List Nat)))
    (heof : (readtty u w (readlineInit t prompt) evs).2 = true) :
    (readtty u w (readlineInit t prompt) evs).1.lineRef = .null ∧
    readlineTty u w t prompt evs = none := by
  have h1 : (readtty u w (readlineInit t prompt) evs).1.lineRef = .null :=
    readtty_eof_aux u w (evs.length + 1) _ evs (by omega) heof
  refine ⟨h1, ?_⟩
  simp only [readlineTty, readlineResult]
  rw [show (readtty u w (readlineInit t prompt) evs).1.lineRef = LineRef.null from h1]

/-- C9 witness: typing one byte and then hitting EOF returns NULL even
though the buffer is non-empty at that point. -/
theorem readtty_eof_returns_null_witness :
    readlineTty asciiUtf8 80 tinyrlNew [] [some [97], none] = none :=
  (readtty_eof_returns_null asciiUtf8 80 tinyrlNew [] [some [97], none] (by decide)).2

/-! ### C6 — non-interactive termination -/

set_option maxRecDepth 8000 in
/-- C6 counterexample: piping exactly 79 bytes of `a` with no newline makes
the first `fgets` fill the whole chunk and the second return NULL; the code
then sets `line = NULL` even though the edit buffer holds the 79 bytes, so
`readline` returns NULL instead of committing the text with a CRLF as the
claim's "otherwise" branch predicts (`done` stays false). -/
theorem readraw_discards_long_tail :
    (readrawLoop asciiUtf8 80 80
        { readlineInit tinyrlNew [] with last_buffer := none }
        (List.replicate 79 97)).2.2.1 = true ∧
    (readraw asciiUtf8 80 (readlineInit tinyrlNew []) (List.replicate 79 97)).done
      = false ∧
    (readraw asciiUtf8 80 (readlineInit tinyrlNew []) (List.replicate 79 97)).lineRef
      = LineRef.null ∧
    cstr (readraw asciiUtf8 80 (readlineInit tinyrlNew [])
      (List.replicate 79 97)).buffer = List.replicate 79 97 ∧
    readlineRaw asciiUtf8 80 tinyrlNew [] (List.replicate 79 97) = none := by
  refine ⟨by decide, by decide, by decide, by decide, by decide⟩

/-- C6 amended: when the buffered line read returns NULL, `readraw` sets
`line = NULL` unconditionally, discarding any accumulated buffer content;
only when the loop stops on a short chunk does it check the claim's
condition: buffer empty and stream at EOF gives `line = NULL`, otherwise a
CRLF is emitted and `done` is set. -/
theorem readraw_termination_spec (u : Utf8) (w : Nat) (t : Tinyrl) (input : List Nat) :
    ((readrawLoop u w (input.length + 1) { t with last_buffer := none } input).2.2.1
        = true →
      readraw u w t input =
        { (readrawLoop u w (input.length + 1) { t with last_buffer := none } input).1
          with lineRef := .null } ∧
      readlineResult (readraw u w t input) = none) ∧
    ((readrawLoop u w (input.length + 1) { t with last_buffer := none } input).2.2.1
        = false →
      (lineStr (readrawLoop u w (input.length + 1)
          { t with last_buffer := none } input).1 = [] ∧
       (readrawLoop u w (input.length + 1) { t with last_buffer := none } input).2.2.2
          = true →
        readraw u w t input =
          { (readrawLoop u w (input.length + 1) { t with last_buffer := none } input).1
            with lineRef := .null }) ∧
      (¬ (lineStr (readrawLoop u w (input.length + 1)
            { t with last_buffer := none } input).1 = [] ∧
          (readrawLoop u w (input.length + 1)
            { t with last_buffer := none } input).2.2.2 = true) →
        readraw u w t input =
          { (readrawLoop u w (input.length + 1) { t with last_buffer := none } input).1
            with
            out := (readrawLoop u w (input.length + 1)
              { t with last_buffer := none } input).1.out ++ [10],
            done := true })) := by
  have hun : readraw u w t input =
      (if ((readrawLoop u w (input.length + 1) { t with last_buffer := none } input).2.2.1
          || (decide (lineStr (readrawLoop u w (input.length + 1)
                { t with last_buffer := none } input).1 = []) &&
              (readrawLoop u w (input.length + 1)
                { t with last_buffer := none } input).2.2.2)) = true then
        { (readrawLoop u w (input.length + 1) { t with last_buffer := none } input).1
          with lineRef := .null }
      else
        { (readrawLoop u w (input.length + 1) { t with last_buffer := none } input).1
          with
          out := (readrawLoop u w (input.length + 1)
            { t with last_buffer := none } input).1.out ++ [10],
          done := true }) := rfl
  constructor
  · intro hnull
    have heq : readraw u w t input =
        { (readrawLoop u w (input.length + 1) { t with last_buffer := none } input).1
          with lineRef := .null } := by
      rw [hun, hnull]
      simp
    refine ⟨heq, ?_⟩
    rw [heq, readlineResult]
  · intro hnn
    constructor
    · intro ⟨hempty, heof2⟩
      rw [hun, hnn, heof2, decide_eq_true hempty]
      simp
    · intro hne
      have hcond : ((readrawLoop u w (input.length + 1)
            { t with last_buffer := none } input).2.2.1
          || (decide (lineStr (readrawLoop u w (input.length + 1)
                { t with last_buffer := none } input).1 = []) &&
              (readrawLoop u w (input.length + 1)
                { t with last_buffer := none } input).2.2.2)) = false := by
        rw [hnn, Bool.false_or]
        by_cases hp : lineStr (readrawLoop u w (input.length + 1)
            { t with last_buffer := none } input).1 = []
        · have he : (readrawLoop u w (input.length + 1)
              { t with last_buffer := none } input).2.2.2 = false := by
            cases hb : (readrawLoop u w (input.length + 1)
                { t with last_buffer := none } input).2.2.2
            · rfl
            · exact absurd ⟨hp, hb⟩ hne
          rw [he, Bool.and_false]
        · rw [decide_eq_false hp, Bool.false_and]
      rw [hun, hcond]
      simp

/-- C6 witness: the amended branch behaviour on empty input (immediate EOF:
`fgets` returns NULL, the line is abandoned). -/
theorem readraw_termination_spec_witness :
    readraw asciiUtf8 80 tinyrlNew [] =
      { (readrawLoop asciiUtf8 80 1 { tinyrlNew with last_buffer := none }
          ([] : List Nat)).1 with lineRef := LineRef.null } :=
  ((readraw_termination_spec asciiUtf8 80 tinyrlNew []).1 (by decide)).1

/-! ### C7 — repeated redisplay -/

/-- A session with its emitted output erased, for comparing everything but
the bytes written to the terminal. -/
def stripOut (t : Tinyrl) : Tinyrl := { t with out := [] }

/-- C7 counterexample: with no intervening mutation, the second `redisplay`
still writes bytes — at least the carriage return and the erase-to-end
sequence of the incremental path — so "produces no output bytes on the
second call" is false even for a trivial session. -/
theorem redisplay_second_call_emits :
    (redisplay asciiUtf8 80 (redisplay asciiUtf8 80 (readlineInit tinyrlNew [104, 105]))).out
      ≠ (redisplay asciiUtf8 80 (readlineInit tinyrlNew [104, 105])).out ∧
    (redisplay asciiUtf8 80 (redisplay asciiUtf8 80
        (readlineInit tinyrlNew [104, 105]))).out.drop
      (redisplay asciiUtf8 80 (readlineInit tinyrlNew [104, 105])).out.length
      = [13, 27, 91, 50, 67, 27, 91, 48, 75] := by
  refine ⟨by decide, by decide⟩

/-- C7 amended: `redisplay` is idempotent on the session state rather than
on the emitted bytes: a second call with no intervening mutation recomputes
the identical snapshot (`last_buffer`, `last_end`, `last_row`,
`last_point_row`) and leaves every field except the accumulated output
unchanged, but it does emit cursor-positioning and erase control bytes. -/
theorem redisplay_snapshot_idempotent (u : Utf8) (w : Nat) (t : Tinyrl) :
    stripOut (redisplay u w (redisplay u w t)) = stripOut (redisplay u w t) := rfl

/-! ### C5 — longest-prefix dispatch -/

/-- `isPref a b`: `a` is a prefix of the byte stream `b`. -/
def isPref (a b : List Nat) : Prop := ∃ tl, a ++ tl = b

theorem isPref_refl (a : List Nat) : isPref a a := ⟨[], by simp⟩

theorem length_le_of_isPref {a b : List Nat} (h : isPref a b) : a.length ≤ b.length := by
  obtain ⟨tl, rfl⟩ := h
  simp

theorem isPref_cons_elim {c : Nat} {S' rem : List Nat} (h : isPref (c :: S') rem) :
    ∃ rest, rem = c :: rest ∧ isPref S' rest := by
  obtain ⟨tl, rfl⟩ := h
  exact ⟨S' ++ tl, rfl, ⟨tl, rfl⟩⟩

theorem isPref_append_left (a : List Nat) {T U : List Nat} (h : isPref T U) :
    isPref (a ++ T) (a ++ U) := by
  obtain ⟨tl, rfl⟩ := h
  exact ⟨tl, by simp⟩

theorem isPref_head {c : Nat} {rest b : List Nat} (h : isPref (c :: rest) b) :
    isPref [c] b := by
  obtain ⟨tl, rfl⟩ := h
  exact ⟨rest ++ tl, by simp⟩

theorem isPref_cons_of_tail {c : Nat} {T rest : List Nat} (h : isPref T rest) :
    isPref (c :: T) (c :: rest) := by
  obtain ⟨tl, rfl⟩ := h
  exact ⟨tl, rfl⟩

theorem isPref_total {a b c : List Nat} (ha : isPref a c) (hb : isPref b c) :
    isPref a b ∨ isPref b a := by
  induction a generalizing b c with
  | nil => exact Or.inl ⟨b, rfl⟩
  | cons x a' ih =>
    cases b with
    | nil => exact Or.inr ⟨x :: a', rfl⟩
    | cons y b' =>
      obtain ⟨ta, hta⟩ := ha
      obtain ⟨tb, htb⟩ := hb
      cases c with
      | nil => cases hta
      | cons z c' =>
        simp only [List.cons_append, List.cons.injEq] at hta htb
        obtain ⟨hxz, hta'⟩ := hta
        obtain ⟨hyz, htb'⟩ := htb
        subst hxz
        subst hyz
        rcases ih ⟨ta, hta'⟩ ⟨tb, htb'⟩ with h1 | h1
        · exact Or.inl (isPref_cons_of_tail h1)
        · exact Or.inr (isPref_cons_of_tail h1)

/-- Descending one bound byte: looking up `c :: T` goes through the child. -/
theorem lookup_cons {km kmc : Keymap} {c : Nat} {T : List Nat}
    (hc : km.child c = some kmc) (hT : T ≠ []) :
    lookupSeq km (c :: T) = lookupSeq kmc T := by
  cases T with
  | nil => exact absurd rfl hT
  | cons t1 tr => simp [lookupSeq, hc]

/-- A walk through a chunk records nothing when no bound sequence is a
prefix of it. -/
theorem walkBytes_no_handler :
    ∀ (rem : List Nat) (km : Keymap) (best : Option Handler) (bd d : Nat),
      (∀ T h2, lookupSeq km T = some h2 → isPref T rem → False) →
      (walkBytes km rem best bd d).1 = best ∧ (walkBytes km rem best bd d).2.1 = bd := by
  intro rem
  induction rem with
  | nil => intro km best bd d hnb; exact ⟨rfl, rfl⟩
  | cons c rest ih =>
    intro km best bd d hnb
    have hhc : km.handler c = none := by
      cases hh : km.handler c with
      | none => rfl
      | some h2 =>
        exact absurd (hnb [c] h2 hh (isPref_head (isPref_refl _))) not_false
    rw [walkBytes]
    cases hcc : km.child c with
    | none => simp [hhc]
    | some kmc =>
      simp only [hhc, hcc]
      exact ih kmc best bd (d + 1) (fun T h2 hl hp =>
        hnb (c :: T) h2 (by
          rw [lookup_cons hcc (by
            intro hT
            subst hT
            simp [lookupSeq] at hl)]
          exact hl) (isPref_cons_of_tail hp))

/-- When a chunk is exhausted with a live node, the reached node looks up
exactly the continuations of the chunk. -/
theorem walkBytes_child_lookup :
    ∀ (rem : List Nat) (km : Keymap) (best : Option Handler) (bd d : Nat) (km2 : Keymap),
      (walkBytes km rem best bd d).2.2.2 = some km2 →
      ∀ T, T ≠ [] → lookupSeq km (rem ++ T) = lookupSeq km2 T := by
  intro rem
  induction rem with
  | nil =>
    intro km best bd d km2 hw T hT
    rw [walkBytes] at hw
    cases hw
    rfl
  | cons c rest ih =>
    intro km best bd d km2 hw T hT
    rw [walkBytes] at hw
    cases hcc : km.child c with
    | none => rw [hcc] at hw; cases hw
    | some kmc =>
      rw [hcc] at hw
      have hrt : rest ++ T ≠ [] := by
        intro hc2
        exact hT (List.append_eq_nil.mp hc2).2
      rw [List.cons_append, lookup_cons hcc hrt]
      exact ih kmc _ _ _ km2 hw T hT

theorem isPref_trans {a b c : List Nat} (h1 : isPref a b) (h2 : isPref b c) : isPref a c := by
  obtain ⟨t1, rfl⟩ := h1
  obtain ⟨t2, rfl⟩ := h2
  exact ⟨t1 ++ t2, by simp⟩

theorem isPref_append_right {T U : List Nat} (V : List Nat) (h : isPref T U) :
    isPref T (U ++ V) := by
  obtain ⟨tl, rfl⟩ := h
  exact ⟨tl ++ V, by simp⟩

theorem appendCancelLeft {a b c : List Nat} (h : a ++ b = a ++ c) : b = c := by
  induction a with
  | nil => exact h
  | cons x a' ih =>
    simp only [List.cons_append, List.cons.injEq] at h
    exact ih h.2

theorem lookup_cons_none {km : Keymap} {c : Nat} {T : List Nat}
    (hc : km.child c = none) (hT : T ≠ []) : lookupSeq km (c :: T) = none := by
  cases T with
  | nil => exact absurd rfl hT
  | cons t1 tr => simp [lookupSeq, hc]

theorem ne_nil_of_lookup {km : Keymap} {T : List Nat} {h : Handler}
    (hl : lookupSeq km T = some h) : T ≠ [] := by
  intro hT
  subst hT
  simp [lookupSeq] at hl

/-- When a bound sequence `S` lies entirely inside the current chunk and no
longer bound sequence is a prefix of the chunk, the chunk walk records the
handler of `S` at depth `|S|`. -/
theorem walkBytes_mainA :
    ∀ (S : List Nat) (km : Keymap) (h : Handler) (rem : List Nat)
      (best : Option Handler) (bd d : Nat),
      lookupSeq km S = some h → isPref S rem →
      (∀ T h2, lookupSeq km T = some h2 → isPref T rem → T.length ≤ S.length) →
      (walkBytes km rem best bd d).1 = some h ∧
      (walkBytes km rem best bd d).2.1 = d + S.length := by
  intro S
  induction S with
  | nil => intro km h rem best bd d hS _ _; simp [lookupSeq] at hS
  | cons c S' ih =>
    intro km h rem best bd d hS hpre hmax
    obtain ⟨rest, rfl, hS'pre⟩ := isPref_cons_elim hpre
    cases S' with
    | nil =>
      have hh : km.handler c = some h := by simpa [lookupSeq] using hS
      rw [walkBytes]
      cases hcc : km.child c with
      | none => simp [hh]
      | some kmc =>
        simp only [hh, hcc]
        have hnb : ∀ T h2, lookupSeq kmc T = some h2 → isPref T rest → False := by
          intro T h2 hl hp
          have hTne : T ≠ [] := ne_nil_of_lookup hl
          have hlc : lookupSeq km (c :: T) = some h2 := by
            rw [lookup_cons hcc hTne]; exact hl
          have := hmax (c :: T) h2 hlc (isPref_cons_of_tail hp)
          simp only [List.length_cons] at this
          have hT0 : T.length = 0 := by simp only [List.length_nil] at this; omega
          exact hTne (List.eq_nil_of_length_eq_zero hT0)
        obtain ⟨e1, e2⟩ := walkBytes_no_handler rest kmc (some h) (d + 1) (d + 1) hnb
        exact ⟨e1, by rw [e2]; simp⟩
    | cons c2 S'' =>
      have hcc : ∃ kmc, km.child c = some kmc := by
        cases hcc0 : km.child c with
        | none => rw [lookup_cons_none hcc0 (by simp)] at hS; cases hS
        | some kmc => exact ⟨kmc, rfl⟩
      obtain ⟨kmc, hcc⟩ := hcc
      have hS2 : lookupSeq kmc (c2 :: S'') = some h := by
        rw [← lookup_cons hcc (by simp)]; exact hS
      have hmax' : ∀ T h2, lookupSeq kmc T = some h2 → isPref T rest →
          T.length ≤ (c2 :: S'').length := by
        intro T h2 hl hp
        have hTne : T ≠ [] := ne_nil_of_lookup hl
        have hlc : lookupSeq km (c :: T) = some h2 := by
          rw [lookup_cons hcc hTne]; exact hl
        have := hmax (c :: T) h2 hlc (isPref_cons_of_tail hp)
        simp only [List.length_cons] at this ⊢
        omega
      rw [walkBytes]
      cases hh : km.handler c with
      | none =>
        simp only [hh, hcc]
        obtain ⟨e1, e2⟩ := ih kmc h rest best bd (d + 1) hS2 hS'pre hmax'
        refine ⟨e1, ?_⟩
        rw [e2]
        simp only [List.length_cons]
        omega
      | some h0 =>
        simp only [hh, hcc]
        obtain ⟨e1, e2⟩ := ih kmc h rest (some h0) (d + 1) (d + 1) hS2 hS'pre hmax'
        refine ⟨e1, ?_⟩
        rw [e2]
        simp only [List.length_cons]
        omega

/-- When the bound sequence extends strictly beyond the current chunk, the
walk exhausts the chunk and hands back the node from which the remainder of
the sequence is still bound. -/
theorem walkBytes_strict :
    ∀ (chunk : List Nat) (km : Keymap) (S2 : List Nat) (h : Handler)
      (best : Option Handler) (bd d : Nat),
      S2 ≠ [] → lookupSeq km (chunk ++ S2) = some h →
      ∃ km2 b2 bd2, walkBytes km chunk best bd d = (b2, bd2, d + chunk.length, some km2) ∧
        lookupSeq km2 S2 = some h := by
  intro chunk
  induction chunk with
  | nil =>
    intro km S2 h best bd d hS2 hlook
    exact ⟨km, best, bd, by rw [walkBytes]; simp, hlook⟩
  | cons c rest ih =>
    intro km S2 h best bd d hS2 hlook
    have hrt : rest ++ S2 ≠ [] := by
      intro hc2
      exact hS2 (List.append_eq_nil.mp hc2).2
    have hcc : ∃ kmc, km.child c = some kmc := by
      cases hcc0 : km.child c with
      | none =>
        rw [List.cons_append, lookup_cons_none hcc0 hrt] at hlook
        cases hlook
      | some kmc => exact ⟨kmc, rfl⟩
    obtain ⟨kmc, hcc⟩ := hcc
    have hlook2 : lookupSeq kmc (rest ++ S2) = some h := by
      rw [← lookup_cons hcc hrt, ← List.cons_append]; exact hlook
    rw [walkBytes]
    cases hh : km.handler c with
    | none =>
      simp only [hh, hcc]
      obtain ⟨km2, b2, bd2, heq, hl2⟩ := ih kmc S2 h best bd (d + 1) hS2 hlook2
      refine ⟨km2, b2, bd2, ?_, hl2⟩
      rw [heq, show d + (c :: rest).length = d + 1 + rest.length by
        simp only [List.length_cons]; omega]
    | some h0 =>
      simp only [hh, hcc]
      obtain ⟨km2, b2, bd2, heq, hl2⟩ := ih kmc S2 h (some h0) (d + 1) (d + 1) hS2 hlook2
      refine ⟨km2, b2, bd2, ?_, hl2⟩
      rw [heq, show d + (c :: rest).length = d + 1 + rest.length by
        simp only [List.length_cons]; omega]

/-- The refill walk records nothing when no bound sequence is a prefix of
the remaining stream. -/
theorem walkAux_no_handler :
    ∀ (chunks : List (List Nat)) (km : Keymap) (chunk cur : List Nat)
      (best : Option Handler) (bd d consumed : Nat),
      (∀ T h2, lookupSeq km T = some h2 → isPref T (chunk ++ chunks.flatten) → False) →
      (∀ kk ∈ chunks, kk ≠ []) →
      (walkAux km chunk cur (chunks.map some) best bd d consumed).1 = best ∧
      (walkAux km chunk cur (chunks.map some) best bd d consumed).2.1 = bd := by
  intro chunks
  induction chunks with
  | nil =>
    intro km chunk cur best bd d consumed hnb _
    obtain ⟨e1, e2⟩ := walkBytes_no_handler chunk km best bd d
      (fun T h2 hl hp => hnb T h2 hl (by simpa using isPref_append_right [] hp))
    simp only [List.map_nil]
    rw [walkAux]
    exact ⟨e1, e2⟩
  | cons k rest ih =>
    intro km chunk cur best bd d consumed hnb hch
    obtain ⟨e1, e2⟩ := walkBytes_no_handler chunk km best bd d
      (fun T h2 hl hp => hnb T h2 hl (isPref_append_right _ hp))
    simp only [List.map_cons]
    rw [walkAux]
    rcases hwb : walkBytes km chunk best bd d with ⟨b2, bd2, d2, okm⟩
    rw [hwb] at e1 e2
    cases okm with
    | none => exact ⟨e1, e2⟩
    | some km2 =>
      have hkne : k ≠ [] := hch k (by simp)
      cases k with
      | nil => exact absurd rfl hkne
      | cons k1 ks =>
        dsimp only
        have hnb2 : ∀ T h2, lookupSeq km2 T = some h2 →
            isPref T ((k1 :: ks) ++ rest.flatten) → False := by
          intro T h2 hl hp
          have hTne : T ≠ [] := ne_nil_of_lookup hl
          have hlc : lookupSeq km (chunk ++ T) = some h2 := by
            rw [walkBytes_child_lookup chunk km best bd d km2 (by rw [hwb]) T hTne]
            exact hl
          refine hnb (chunk ++ T) h2 hlc ?_
          have := isPref_append_left chunk hp
          simpa [List.flatten_cons, List.append_assoc] using this
        obtain ⟨f1, f2⟩ := ih km2 (k1 :: ks) (k1 :: ks) b2 bd2 d2 (consumed + 1) hnb2
          (fun kk hkk => hch kk (by simp [hkk]))
        rw [f1, f2]
        exact ⟨e1, e2⟩


/-- The dispatch walk of `tinyrl_handle_key` selects the handler of the
longest bound sequence `S` leading the stream, at depth `|S|`. -/
theorem walkAux_main :
    ∀ (chunks : List (List Nat)) (S X : List Nat) (km : Keymap) (h : Handler)
      (chunk cur : List Nat) (best : Option Handler) (bd d consumed : Nat),
      lookupSeq km S = some h → chunk ≠ [] →
      (∀ kk ∈ chunks, kk ≠ []) →
      chunk ++ chunks.flatten = S ++ X →
      (∀ T h2, lookupSeq km T = some h2 → isPref T (S ++ X) → T.length ≤ S.length) →
      (walkAux km chunk cur (chunks.map some) best bd d consumed).1 = some h ∧
      (walkAux km chunk cur (chunks.map some) best bd d consumed).2.1 = d + S.length := by
  intro chunks
  induction chunks with
  | nil =>
    intro S X km h chunk cur best bd d consumed hS hchne hch hstream hmax
    have hX : chunk = S ++ X := by simpa using hstream
    have hpre : isPref S chunk := ⟨X, hX.symm⟩
    obtain ⟨e1, e2⟩ := walkBytes_mainA S km h chunk best bd d hS hpre
      (fun T h2 hl hp => hmax T h2 hl (hX ▸ hp))
    simp only [List.map_nil]
    rw [walkAux]
    exact ⟨e1, e2⟩
  | cons k rest ih =>
    intro S X km h chunk cur best bd d consumed hS hchne hch hstream hmax
    have hchpre : isPref chunk (S ++ X) := ⟨(k :: rest).flatten, hstream⟩
    simp only [List.map_cons]
    rw [walkAux]
    by_cases hpA : isPref S chunk
    · obtain ⟨e1, e2⟩ := walkBytes_mainA S km h chunk best bd d hS hpA
        (fun T h2 hl hp => hmax T h2 hl (isPref_trans hp hchpre))
      rcases hwb : walkBytes km chunk best bd d with ⟨b2, bd2, d2, okm⟩
      rw [hwb] at e1 e2
      cases okm with
      | none => exact ⟨e1, e2⟩
      | some km2 =>
        have hkne : k ≠ [] := hch k (by simp)
        cases k with
        | nil => exact absurd rfl hkne
        | cons k1 ks =>
          dsimp only
          have hnb2 : ∀ T h2, lookupSeq km2 T = some h2 →
              isPref T ((k1 :: ks) ++ rest.flatten) → False := by
            intro T h2 hl hp
            have hTne : T ≠ [] := ne_nil_of_lookup hl
            have hlc : lookupSeq km (chunk ++ T) = some h2 := by
              rw [walkBytes_child_lookup chunk km best bd d km2 (by rw [hwb]) T hTne]
              exact hl
            have hpp : isPref (chunk ++ T) (S ++ X) := by
              have := isPref_append_left chunk hp
              rw [← hstream]
              simpa [List.flatten_cons, List.append_assoc] using this
            have hlen := hmax (chunk ++ T) h2 hlc hpp
            have hSc : S.length ≤ chunk.length := length_le_of_isPref hpA
            simp only [List.length_append] at hlen
            have hT0 : T.length = 0 := by omega
            exact hTne (List.eq_nil_of_length_eq_zero hT0)
          obtain ⟨f1, f2⟩ := walkAux_no_handler rest km2 (k1 :: ks) (k1 :: ks) b2 bd2 d2
            (consumed + 1) hnb2 (fun kk hkk => hch kk (by simp [hkk]))
          rw [f1, f2]
          exact ⟨e1, e2⟩
    · have hp : isPref chunk S := by
        rcases isPref_total (a := S) (b := chunk) ⟨X, rfl⟩ hchpre with hp | hp
        · exact absurd hp hpA
        · exact hp
      obtain ⟨S2, hSeq⟩ := hp
      have hS2ne : S2 ≠ [] := by
        intro hc
        subst hc
        exact hpA ⟨[], by simpa using hSeq.symm⟩
      have hSl : lookupSeq km (chunk ++ S2) = some h := by rw [hSeq]; exact hS
      obtain ⟨km2, b2, bd2, heq, hl2⟩ := walkBytes_strict chunk km S2 h best bd d hS2ne hSl
      rw [heq]
      have hkne : k ≠ [] := hch k (by simp)
      cases k with
      | nil => exact absurd rfl hkne
      | cons k1 ks =>
        dsimp only
        have hstream2 : (k1 :: ks) ++ rest.flatten = S2 ++ X := by
          apply appendCancelLeft (a := chunk)
          have h5 : chunk ++ (S2 ++ X) = (chunk ++ S2) ++ X := by rw [List.append_assoc]
          rw [h5, hSeq, ← hstream]
          simp [List.flatten_cons, List.append_assoc]
        have hmax2 : ∀ T h2, lookupSeq km2 T = some h2 → isPref T (S2 ++ X) →
            T.length ≤ S2.length := by
          intro T h2 hl hp2
          have hTne : T ≠ [] := ne_nil_of_lookup hl
          have hlc : lookupSeq km (chunk ++ T) = some h2 := by
            rw [walkBytes_child_lookup chunk km best bd d km2 (by rw [heq]) T hTne]
            exact hl
          have hpp : isPref (chunk ++ T) (S ++ X) := by
            have := isPref_append_left chunk hp2
            simpa only [← List.append_assoc, hSeq] using this
          have hlen := hmax (chunk ++ T) h2 hlc hpp
          have hSlen : S.length = chunk.length + S2.length := by
            rw [← hSeq]; simp [List.length_append]
          simp only [List.length_append] at hlen
          omega
        obtain ⟨g1, g2⟩ := ih S2 X km2 h (k1 :: ks) (k1 :: ks) b2 bd2 (d + chunk.length)
          (consumed + 1) hl2 (by simp) (fun kk hkk => hch kk (by simp [hkk])) hstream2 hmax2
        refine ⟨g1, ?_⟩
        rw [g2]
        have hSlen : S.length = chunk.length + S2.length := by
          rw [← hSeq]; simp [List.length_append]
        omega

/-- C5: Keymap dispatch is longest-prefix.  For every keymap, every bound
byte sequence `S` and every input stream `S ++ X` (current chunk plus the
pending reads) on which no longer bound sequence is a prefix, the dispatch
walk of `tinyrl_handle_key` selects exactly the handler bound to `S` with
exactly `|S|` matched bytes; `tinyrl_handle_key` then invokes that selected
handler once, rings the bell when no handler was selected, rings the bell
when the invoked handler returns false, and emits no bell when it returns
true.  Bytes read past the match are discarded (they are not re-dispatched;
the walk only reports the consumed read count). -/
theorem dispatch_longest_match :
    (∀ (km : Keymap) (S X : List Nat) (h : Handler) (chunk : List Nat)
        (chunks : List (List Nat)),
        lookupSeq km S = some h → chunk ≠ [] → (∀ kk ∈ chunks, kk ≠ []) →
        chunk ++ chunks.flatten = S ++ X →
        (∀ T h2, lookupSeq km T = some h2 → isPref T (S ++ X) → T.length ≤ S.length) →
        (dispatchSel km chunk (chunks.map some)).1 = some h ∧
        (dispatchSel km chunk (chunks.map some)).2.1 = S.length) ∧
    (∀ u w t chunk evs, (dispatchSel t.keymap chunk evs).1 = none →
        (handleKeyS u w t chunk evs).1 = ding t) ∧
    (∀ u w t chunk evs h,
        (dispatchSel t.keymap chunk evs).1 = some h →
        (execHandler u w h t (dispatchSel t.keymap chunk evs).2.2.1).2 = false →
        (handleKeyS u w t chunk evs).1 =
          ding (execHandler u w h t (dispatchSel t.keymap chunk evs).2.2.1).1) ∧
    (∀ u w t chunk evs h,
        (dispatchSel t.keymap chunk evs).1 = some h →
        (execHandler u w h t (dispatchSel t.keymap chunk evs).2.2.1).2 = true →
        (handleKeyS u w t chunk evs).1 =
          (execHandler u w h t (dispatchSel t.keymap chunk evs).2.2.1).1) := by
  refine ⟨?_, ?_, ?_, ?_⟩
  · intro km S X h chunk chunks hS hchne hch hstream hmax
    obtain ⟨e1, e2⟩ := walkAux_main chunks S X km h chunk chunk none 0 0 0 hS hchne hch
      hstream hmax
    constructor
    · rw [dispatchSel]
      exact e1
    · rw [dispatchSel, e2]
      omega
  · intro u w t chunk evs hsel
    dsimp only [handleKeyS]
    rw [hsel]
  · intro u w t chunk evs h hsel hfail
    dsimp only [handleKeyS]
    rw [hsel]
    dsimp only
    rw [hfail]
    simp
  · intro u w t chunk evs h hsel hok
    dsimp only [handleKeyS]
    rw [hsel]
    dsimp only
    rw [hok]
    simp

theorem dispatch_longest_match_witness :
    (dispatchSel (bindSeq (bindKey emptyKeymap 97 (some .default)) [27, 91, 68] (some .left))
        [27] ([[91], [68]].map some)).1 = some Handler.left ∧
    (dispatchSel (bindSeq (bindKey emptyKeymap 97 (some .default)) [27, 91, 68] (some .left))
        [27] ([[91], [68]].map some)).2.1 = 3 := by
  have h := dispatch_longest_match.1
    (bindSeq (bindKey emptyKeymap 97 (some .default)) [27, 91, 68] (some .left))
    [27, 91, 68] [] Handler.left [27] [[91], [68]]
    (by decide) (by decide) (by decide) (by decide)
    (fun T h2 hl hp => by
      have := length_le_of_isPref hp
      simpa using this)
  exact ⟨h.1, h.2⟩
